import Mathlib

/-!
# NtRays: verification development for `plugin.cpp`

A shallow embedding of the transformation units of the NtRays decompiler plugin
(`src/plugin.cpp`) and theorems about them.

Conventions of the embedding:

* `ea_t`, `size_t` and `uint8_t` values are natural numbers; 64-bit wrap-around is
  written explicitly with `% 2 ^ 64` wherever the source arithmetic can wrap.
* The loaded binary image is a list of bytes; the address of a byte is its index
  (`inf_get_min_ea () = 0`, `inf_get_max_ea () = img.length`).
* `BADADDR` results of searches are `none`.
-/

namespace NtRays

/-! ## Raw image primitives (host interface: `bin_search2`, `get_bytes`, `put_bytes`) -/

/-- The byte sequence searched for by `remove_rsb_flush` (`plugin.cpp`, lines 256-267). -/
def rsb_pattern : List Nat :=
  [0xE8, 0x0E, 0x01, 0x00, 0x00,
   0x48, 0x83, 0xC4, 0x08,
   0xE8, 0x0E, 0x01, 0x00, 0x00]

/-- The byte sequence written over every match (`plugin.cpp`, lines 268-273). -/
def rsb_replace_with : List Nat :=
  [0x66, 0x0F, 0x1F, 0x84, 0xDE, 0xAD, 0xC0, 0xFE, 0xFE,
   0xE9, 0x12, 0x01, 0x00, 0x00]

/-- Does the image hold the bytes `pat` at address `ea`?  Every byte of the pattern has to
be a byte of the image (no mask: `bin_search2` is called with `mask = nullptr`). -/
def match_at (img : List Nat) : Nat → List Nat → Bool
  | _, [] => true
  | ea, b :: bs => (img[ea]? == some b) && match_at img (ea + 1) bs

/-- Forward linear scan of `n` candidate addresses starting at `ea`. -/
def scan_forward (img pat : List Nat) : Nat → Nat → Option Nat
  | 0, _ => none
  | n + 1, ea => if match_at img ea pat then some ea else scan_forward img pat n (ea + 1)

/-- Host primitive `bin_search2 (start_ea, end_ea, image, mask = nullptr, len, BIN_SEARCH_FORWARD)`:
the lowest address in `[start_ea, end_ea)` at which the pattern occurs, `none` for `BADADDR`. -/
def bin_search2 (img : List Nat) (start_ea end_ea : Nat) (pat : List Nat) : Option Nat :=
  scan_forward img pat (end_ea - start_ea) start_ea

/-- Host primitive `put_bytes (ea, buf, size)`: stores the bytes one by one; addresses outside
the image are not written. -/
def put_bytes (img : List Nat) : Nat → List Nat → List Nat
  | _, [] => img
  | ea, b :: bs => put_bytes (img.set ea b) (ea + 1) bs

/-- Host primitive `get_bytes (buf, size, ea)`: reads `size` bytes starting at `ea`; a byte that
is not loaded reads as `0xFF`. -/
def get_bytes (img : List Nat) (size ea : Nat) : List Nat :=
  (List.range size).map (fun i => img.getD (ea + i) 0xFF)

/-- The loop of `remove_rsb_flush` (`plugin.cpp`, lines 310-325) with an iteration budget.
The second component records, oldest first, the addresses handed to `put_bytes`.
`none` means the budget ran out before `bin_search2` returned `BADADDR`. -/
def remove_rsb_flush_loop : Nat → List Nat → List Nat → Option (List Nat × List Nat)
  | 0, _, _ => none
  | fuel + 1, img, log =>
    match bin_search2 img 0 img.length rsb_pattern with
    | none => some (img, log)
    | some res => remove_rsb_flush_loop fuel (put_bytes img res rsb_replace_with) (log ++ [res])

/-- Run of `remove_rsb_flush` on an image, with the log of overwritten addresses.  One more
iteration than there are addresses always suffices (see `remove_rsb_flush_run_spec`). -/
def remove_rsb_flush_run (img : List Nat) : Option (List Nat × List Nat) :=
  remove_rsb_flush_loop (img.length + 1) img []

/-- The image left by `remove_rsb_flush`. -/
def remove_rsb_flush (img : List Nat) : Option (List Nat) :=
  (remove_rsb_flush_run img).map Prod.fst

/-- Little-endian value of a byte string (the `rel32` field of a near call or jump). -/
def le_value : List Nat → Nat
  | [] => 0
  | b :: bs => b + 256 * le_value bs

/-! ## Microcode data model (host types `mop_t`, `minsn_t`, `mblock_t`) -/

/-- Microcode opcodes of the host decompiler. -/
inductive mcode_t where
  | m_nop | m_stx | m_ldx | m_ldc | m_mov | m_neg | m_lnot | m_bnot | m_xds | m_xdu
  | m_low | m_high | m_add | m_sub | m_mul | m_udiv | m_sdiv | m_umod | m_smod
  | m_or | m_and | m_xor | m_shl | m_shr | m_sar | m_cfadd | m_ofadd | m_cfshl | m_cfshr
  | m_sets | m_seto | m_setp | m_setnz | m_setz | m_setae | m_setb | m_seta | m_setbe
  | m_setg | m_setge | m_setl | m_setle
  | m_jcnd | m_jnz | m_jz | m_jae | m_jb | m_ja | m_jbe | m_jg | m_jge | m_jl | m_jle
  | m_jtbl | m_ijmp | m_goto | m_call | m_icall | m_ret | m_push | m_pop | m_und | m_ext
  | m_f2i | m_f2u | m_i2f | m_u2f | m_f2f | m_fneg | m_fadd | m_fsub | m_fmul | m_fdiv
  deriving DecidableEq, Repr

open mcode_t in
/-- Host predicate `is_mcode_jcond`: the opcodes `m_jcnd` .. `m_jle`. -/
def is_mcode_jcond : mcode_t → Bool
  | m_jcnd | m_jnz | m_jz | m_jae | m_jb | m_ja | m_jbe | m_jg | m_jge | m_jl | m_jle => true
  | _ => false

/-- Type descriptions (`tinfo_t`), as far as the lifters build them. -/
inductive tinfo_t where
  | BT_VOID
  | BTF_UINT64
  | named (name : String)
  | ptr (target : tinfo_t)
  deriving DecidableEq, Repr

/-- Host function `tinfo_t::get_size` on a 64-bit database; `-1` is `BADSIZE`. -/
def tinfo_t.get_size : tinfo_t → Int
  | .BTF_UINT64 => 8
  | .ptr _ => 8
  | _ => -1

/-- Calling conventions (`cm_t`), as far as they are used. -/
inductive cm_t where
  | CM_CC_UNKNOWN | CM_CC_FASTCALL
  deriving DecidableEq, Repr

/-- Function roles (`funcrole_t`), as far as they are used. -/
inductive funcrole_t where
  | ROLE_UNK
  deriving DecidableEq, Repr

/-- Call property bits (`FCI_...`). -/
inductive fci_t where
  | FCI_PROP | FCI_DEAD | FCI_FINAL | FCI_NORET | FCI_PURE
  deriving DecidableEq, Repr

/-- The scalar fields of `mcallinfo_t` written by the lifters; `callee = none` is `BADADDR`.
The argument list lives in the operand that owns the descriptor. -/
structure mcallinfo_t where
  cc : cm_t
  callee : Option Nat
  solid_args : Nat
  call_spd : Int
  stkargs_top : Int
  role : funcrole_t
  flags : List fci_t
  return_type : tinfo_t
  deriving DecidableEq, Repr

mutual
/-- Microcode operands, a tagged union.  The constructor is the tag `t`; `size` is the
operand size in bytes (`-1` for `NOSIZE`). -/
inductive mop_t where
  /-- Empty operand slot. -/
  | mop_z
  /-- Register. -/
  | mop_r (r : Nat) (size : Int)
  /-- Immediate number. -/
  | mop_n (value : Nat) (size : Int)
  /-- Global variable, referenced by its address `g`. -/
  | mop_v (g : Nat) (size : Int)
  /-- Block number (jump target). -/
  | mop_b (b : Nat)
  /-- Helper function name. -/
  | mop_h (helper : String)
  /-- Result of a nested instruction. -/
  | mop_d (d : minsn_t) (size : Int)
  /-- Call descriptor with its argument operands. -/
  | mop_f (f : mcallinfo_t) (args : mcallargs_t) (size : Int)
/-- Microcode instructions: opcode, the operands `l`, `r`, `d` and the source address. -/
inductive minsn_t where
  | mk (opcode : mcode_t) (l r d : mop_t) (ea : Nat)
/-- Argument operands of a call descriptor. -/
inductive mcallargs_t where
  | nil
  | cons (arg : mop_t) (rest : mcallargs_t)
end

/-- Opcode of an instruction. -/
def minsn_t.opcode : minsn_t → mcode_t
  | .mk opcode _ _ _ _ => opcode

/-- Left operand of an instruction. -/
def minsn_t.l : minsn_t → mop_t
  | .mk _ l _ _ _ => l

/-- Right operand of an instruction. -/
def minsn_t.r : minsn_t → mop_t
  | .mk _ _ r _ _ => r

/-- Destination operand of an instruction. -/
def minsn_t.d : minsn_t → mop_t
  | .mk _ _ _ d _ => d

/-- Source address of an instruction. -/
def minsn_t.ea : minsn_t → Nat
  | .mk _ _ _ _ ea => ea

/-- The union member `g` of an operand, as the source reads it (`op->g`) without looking at
the tag.  For a global reference it is the address of the global.  For every other tag the
member that is live is not `g`; what the read yields is given by `union_bits`, the eight
payload bytes of the operand seen as an address. -/
def mop_t.g (union_bits : mop_t → Nat) : mop_t → Nat
  | .mop_v g _ => g
  | op => union_bits op

/-- Host function `mop_t::make_number (value, size)`: the operand becomes an immediate. -/
def make_number (value : Nat) (size : Int) : mop_t :=
  .mop_n value size

/-- Host function `minsn_t::_make_nop`: opcode `m_nop`, all operands erased, address kept. -/
def minsn_t._make_nop (ins : minsn_t) : minsn_t :=
  .mk .m_nop .mop_z .mop_z .mop_z ins.ea

/-- A basic block: its instructions from `head` to `tail`, the serial numbers of its
predecessors, and whether its use/def lists have been marked dirty. -/
structure mblock_t where
  insns : List minsn_t
  predset : List Nat
  lists_dirty : Bool

/-- Host function `mblock_t::mark_lists_dirty`. -/
def mblock_t.mark_lists_dirty (blk : mblock_t) : mblock_t :=
  { blk with lists_dirty := true }

/-- Host function `mblock_t::make_nop (ins)` for the instruction at position `i` of the block:
the instruction is turned into a no-op in place and the lists are marked dirty. -/
def mblock_t.make_nop (blk : mblock_t) (i : Nat) : mblock_t :=
  match blk.insns[i]? with
  | some ins => { blk with insns := blk.insns.set i ins._make_nop, lists_dirty := true }
  | none => blk

/-- Host function `mblock_t::insert_into_block (nm, om)` with `om = tail`: the new instruction
becomes the last one of the block. -/
def mblock_t.insert_into_block_at_tail (blk : mblock_t) (nm : minsn_t) : mblock_t :=
  { blk with insns := blk.insns ++ [nm] }

/-! ## Operand traversal (host interface `for_all_ops`) -/

mutual
/-- Modelled from the spec: `mop_t::for_all_ops` of the host, which is not part of the
sources.  The visitor is called on the operand and then on its sub-operands (the operands of
a nested instruction, the arguments of a call descriptor); every operand is visited once and
the traversal stops at the first visit that reports a change.  An empty slot is not an
operand.  A visitor is given by its effect on one operand: `none` when `visit_mop` returns 0
and leaves the operand alone, `some op1` when it rewrites the operand to `op1` and returns 1.
The result is the returned code and the operand after the traversal. -/
def mop_t.for_all_ops (mv : mop_t → Option mop_t) : mop_t → Int × mop_t
  | .mop_z => (0, .mop_z)
  | .mop_d d size =>
    match mv (.mop_d d size) with
    | some op1 => (1, op1)
    | none => ((d.for_all_ops mv).1, .mop_d (d.for_all_ops mv).2 size)
  | .mop_f f args size =>
    match mv (.mop_f f args size) with
    | some op1 => (1, op1)
    | none => ((args.for_all_ops mv).1, .mop_f f (args.for_all_ops mv).2 size)
  | .mop_r r size =>
    match mv (.mop_r r size) with
    | some op1 => (1, op1)
    | none => (0, .mop_r r size)
  | .mop_n value size =>
    match mv (.mop_n value size) with
    | some op1 => (1, op1)
    | none => (0, .mop_n value size)
  | .mop_v g size =>
    match mv (.mop_v g size) with
    | some op1 => (1, op1)
    | none => (0, .mop_v g size)
  | .mop_b b =>
    match mv (.mop_b b) with
    | some op1 => (1, op1)
    | none => (0, .mop_b b)
  | .mop_h helper =>
    match mv (.mop_h helper) with
    | some op1 => (1, op1)
    | none => (0, .mop_h helper)
/-- Modelled from the spec: `minsn_t::for_all_ops` of the host, which is not part of the
sources.  The operands `l`, `r`, `d` are traversed in this order; the traversal stops at the
first non-zero code. -/
def minsn_t.for_all_ops (mv : mop_t → Option mop_t) : minsn_t → Int × minsn_t
  | .mk opcode l r d ea =>
    if (l.for_all_ops mv).1 ≠ 0 then
      ((l.for_all_ops mv).1, .mk opcode (l.for_all_ops mv).2 r d ea)
    else if (r.for_all_ops mv).1 ≠ 0 then
      ((r.for_all_ops mv).1, .mk opcode (l.for_all_ops mv).2 (r.for_all_ops mv).2 d ea)
    else
      ((d.for_all_ops mv).1,
        .mk opcode (l.for_all_ops mv).2 (r.for_all_ops mv).2 (d.for_all_ops mv).2 ea)
/-- Traversal of the arguments of a call descriptor, first to last. -/
def mcallargs_t.for_all_ops (mv : mop_t → Option mop_t) : mcallargs_t → Int × mcallargs_t
  | .nil => (0, .nil)
  | .cons arg rest =>
    if (arg.for_all_ops mv).1 ≠ 0 then
      ((arg.for_all_ops mv).1, .cons (arg.for_all_ops mv).2 rest)
    else
      ((rest.for_all_ops mv).1, .cons (arg.for_all_ops mv).2 (rest.for_all_ops mv).2)
end

/-! ## Positions in the operand tree -/

/-- Argument number `i` of a call descriptor. -/
def mcallargs_t.get? : mcallargs_t → Nat → Option mop_t
  | .nil, _ => none
  | .cons arg _, 0 => some arg
  | .cons _ rest, i + 1 => rest.get? i

/-- Replace argument number `i` of a call descriptor. -/
def mcallargs_t.set : mcallargs_t → Nat → mop_t → mcallargs_t
  | .nil, _, _ => .nil
  | .cons _ rest, 0, new => .cons new rest
  | .cons arg rest, i + 1, new => .cons arg (rest.set i new)

/-- Operand slot `i` of an instruction: `0` is `l`, `1` is `r`, `2` is `d`. -/
def minsn_t.slot? : minsn_t → Nat → Option mop_t
  | .mk _ l _ _ _, 0 => some l
  | .mk _ _ r _ _, 1 => some r
  | .mk _ _ _ d _, 2 => some d
  | _, _ => none

/-- Replace operand slot `i` of an instruction. -/
def minsn_t.set_slot : minsn_t → Nat → mop_t → minsn_t
  | .mk opcode _ r d ea, 0, new => .mk opcode new r d ea
  | .mk opcode l _ d ea, 1, new => .mk opcode l new d ea
  | .mk opcode l r _ ea, 2, new => .mk opcode l r new ea
  | ins, _, _ => ins

/-- Sub-operand number `i` of an operand: a slot of the nested instruction or an argument of
the call descriptor. -/
def mop_t.sub? : mop_t → Nat → Option mop_t
  | .mop_d d _, i => d.slot? i
  | .mop_f _ args _, i => args.get? i
  | _, _ => none

/-- Replace sub-operand number `i` of an operand. -/
def mop_t.set_sub : mop_t → Nat → mop_t → mop_t
  | .mop_d d size, i, new => .mop_d (d.set_slot i new) size
  | .mop_f f args size, i, new => .mop_f f (args.set i new) size
  | op, _, _ => op

/-- The operand found by following a path of sub-operand numbers; an empty slot holds no
operand. -/
def mop_t.operand_at : mop_t → List Nat → Option mop_t
  | .mop_z, _ => none
  | op, [] => some op
  | op, i :: path =>
    match op.sub? i with
    | some sub => sub.operand_at path
    | none => none

/-- Replace the operand at a path by `new`. -/
def mop_t.replace_at : mop_t → List Nat → mop_t → mop_t
  | _, [], new => new
  | op, i :: path, new =>
    match op.sub? i with
    | some sub => op.set_sub i (sub.replace_at path new)
    | none => op

/-- The operand of an instruction at a path: a slot, then sub-operand numbers. -/
def minsn_t.operand_at : minsn_t → List Nat → Option mop_t
  | _, [] => none
  | ins, i :: path =>
    match ins.slot? i with
    | some op => op.operand_at path
    | none => none

/-- Replace the operand of an instruction at a path by `new`. -/
def minsn_t.replace_at : minsn_t → List Nat → mop_t → minsn_t
  | ins, [], _ => ins
  | ins, i :: path, new =>
    match ins.slot? i with
    | some op => ins.set_slot i (op.replace_at path new)
    | none => ins

/-- Order of the traversal on positions: an operand comes before its sub-operands, and a
lower-numbered sub-operand with everything below it before a higher-numbered one. -/
def visited_before : List Nat → List Nat → Bool
  | [], [] => false
  | [], _ :: _ => true
  | _ :: _, [] => false
  | i :: p, j :: q => decide (i < j) || (decide (i = j) && visited_before p q)

/-- What a traversal of an operand with visitor `mv` comes to: either no operand below (and
including) `op` is rewritten by the visitor, the code is 0 and the operand is as before; or
the code is 1 and the result is `op` with the operand at one position rewritten, that
position being the first in the order of the traversal whose operand the visitor rewrites. -/
def mop_t.traversal_outcome (mv : mop_t → Option mop_t) (op : mop_t) : Prop :=
  (op.for_all_ops mv = (0, op) ∧ ∀ path o, op.operand_at path = some o → mv o = none) ∨
  ∃ path o o1, op.operand_at path = some o ∧ mv o = some o1 ∧
    (∀ q o2, visited_before q path = true → op.operand_at q = some o2 → mv o2 = none) ∧
    op.for_all_ops mv = (1, op.replace_at path o1)

/-- The same for the traversal of an instruction. -/
def minsn_t.traversal_outcome (mv : mop_t → Option mop_t) (ins : minsn_t) : Prop :=
  (ins.for_all_ops mv = (0, ins) ∧ ∀ path o, ins.operand_at path = some o → mv o = none) ∨
  ∃ path o o1, ins.operand_at path = some o ∧ mv o = some o1 ∧
    (∀ q o2, visited_before q path = true → ins.operand_at q = some o2 → mv o2 = none) ∧
    ins.for_all_ops mv = (1, ins.replace_at path o1)

/-- The operand at a path below an argument list: an argument, then sub-operand numbers. -/
def mcallargs_t.operand_at : mcallargs_t → List Nat → Option mop_t
  | _, [] => none
  | args, i :: path =>
    match args.get? i with
    | some op => op.operand_at path
    | none => none

/-- Replace the operand at a path below an argument list by `new`. -/
def mcallargs_t.replace_at : mcallargs_t → List Nat → mop_t → mcallargs_t
  | args, [], _ => args
  | args, i :: path, new =>
    match args.get? i with
    | some op => args.set i (op.replace_at path new)
    | none => args

/-- The same for the traversal of an argument list. -/
def mcallargs_t.traversal_outcome (mv : mop_t → Option mop_t) (args : mcallargs_t) : Prop :=
  (args.for_all_ops mv = (0, args) ∧ ∀ path o, args.operand_at path = some o → mv o = none) ∨
  ∃ path o o1, args.operand_at path = some o ∧ mv o = some o1 ∧
    (∀ q o2, visited_before q path = true → args.operand_at q = some o2 → mv o2 = none) ∧
    args.for_all_ops mv = (1, args.replace_at path o1)

/-- The names in `force_zero_list` of `global_optimizer`. -/
def force_zero_list : List String :=
  ["KiIrqlFlags", "HvlEnlightenments", "PerfGlobalGroupMask", "HvlLongSpinCountMask"]

/-- The operand visitor of `global_optimizer` (lines 28-53): for `delta` in `0..8` the name at
`op->g - delta` (64-bit subtraction) is compared with every entry of `force_zero_list`; on the
first hit the operand is made the number `0` of size 4 and `1` is returned. -/
def global_optimizer_visitor (get_name : Nat → String) (union_bits : mop_t → Nat)
    (op : mop_t) : Option mop_t :=
  if (List.range 9).any (fun delta =>
      force_zero_list.any (fun item =>
        get_name ((op.g union_bits + 2 ^ 64 - delta) % 2 ^ 64) == item))
  then some (make_number 0 4)
  else none

/-- The instruction optimizer `global_optimizer` (lines 19-57).  Result: the returned count,
the block, the instruction. -/
def global_optimizer (get_name : Nat → String) (union_bits : mop_t → Nat)
    (blk : mblock_t) (ins : minsn_t) : Int × mblock_t × minsn_t :=
  if !is_mcode_jcond ins.opcode then (0, blk, ins)
  else
    let res := ins.for_all_ops (global_optimizer_visitor get_name union_bits)
    if res.1 ≠ 0 then (res.1, blk.mark_lists_dirty, res.2)
    else (res.1, blk, res.2)

/-- The operand visitor of `shadow_pte_update_optimizer` (lines 70-87). -/
def shadow_pte_update_visitor (get_name : Nat → String) (union_bits : mop_t → Nat)
    (op : mop_t) : Option mop_t :=
  match op with
  | .mop_d d _ =>
    if d.opcode = .m_call then
      let callee := get_name (d.l.g union_bits)
      if callee == "MiPteHasShadow" || callee == "MiPteInShadowRange" then
        some (make_number 0 4)
      else none
    else none
  | _ => none

/-- The instruction optimizer `shadow_pte_update_optimizer` (lines 61-94). -/
def shadow_pte_update_optimizer (get_name : Nat → String) (union_bits : mop_t → Nat)
    (blk : mblock_t) (ins : minsn_t) : Int × mblock_t × minsn_t :=
  if !is_mcode_jcond ins.opcode then (0, blk, ins)
  else
    let res := ins.for_all_ops (shadow_pte_update_visitor get_name union_bits)
    if res.1 ≠ 0 then (res.1, blk.mark_lists_dirty, res.2)
    else (res.1, blk, res.2)

/-! ## Block optimizer (`plugin.cpp`, lines 98-122) -/

/-- The test of line 105, negated: the instruction is a call and the name at `ins->l.g` is
`KiRemoveSystemWorkPriorityKick`. -/
def is_scheduler_hint (get_name : Nat → String) (union_bits : mop_t → Nat)
    (ins : minsn_t) : Bool :=
  !(ins.opcode != .m_call || get_name (ins.l.g union_bits) != "KiRemoveSystemWorkPriorityKick")

/-- The inner loop of lines 117-119 on one predecessor: every instruction that is not
`pred->tail` is handed to `pred->make_nop`. -/
def clear_predecessor (pred : mblock_t) : mblock_t :=
  (List.range pred.insns.length).foldl
    (fun blk j => if j + 1 ≠ pred.insns.length then blk.make_nop j else blk) pred

/-- Apply a block update to block number `n` of the function (no block: nothing happens). -/
def update_block (mba : List mblock_t) (n : Nat) (f : mblock_t → mblock_t) : List mblock_t :=
  match mba[n]? with
  | some blk => mba.set n (f blk)
  | none => mba

/-- The loop of lines 116-119: all predecessors of block `b`, in the order of its `predset`. -/
def clear_predecessors (mba : List mblock_t) (b : Nat) : List mblock_t :=
  match mba[b]? with
  | some blk => blk.predset.foldl (fun m p => update_block m p clear_predecessor) mba
  | none => mba

/-- One iteration of the loop of lines 101-120, for the instruction at position `i` of block
`b`; the state is the function and the counter `changes`. -/
def scheduler_hint_step (get_name : Nat → String) (union_bits : mop_t → Nat) (b : Nat)
    (st : List mblock_t × Int) (i : Nat) : List mblock_t × Int :=
  match st.1[b]? with
  | some blk =>
    match blk.insns[i]? with
    | some ins =>
      if is_scheduler_hint get_name union_bits ins then
        (clear_predecessors (update_block st.1 b (fun blk => blk.make_nop i)) b, st.2 + 1)
      else st
    | none => st
  | none => st

/-- The block optimizer `scheduler_hint_optimizer` (lines 98-122) on block `b` of a function
given by its list of blocks.  Result: the function after the pass and the returned count. -/
def scheduler_hint_optimizer (get_name : Nat → String) (union_bits : mop_t → Nat)
    (mba : List mblock_t) (b : Nat) : List mblock_t × Int :=
  match mba[b]? with
  | some blk =>
    (List.range blk.insns.length).foldl (scheduler_hint_step get_name union_bits b) (mba, 0)
  | none => (mba, 0)

/-- The number of `make_nop` calls the loop of lines 116-119 issues on the predecessors of
block `b` for one matched call: every instruction of every predecessor but its tail. -/
def predecessor_instructions_cleared (mba : List mblock_t) (b : Nat) : Nat :=
  match mba[b]? with
  | some blk =>
    (blk.predset.map (fun p =>
      match mba[p]? with
      | some pred => pred.insns.length - 1
      | none => 0)).sum
  | none => 0

/-- Block `cur` is block `orig` with every instruction but the last turned into a no-op
(the last instruction and the predecessor set are those of `orig`). -/
def mblock_t.cleared_from (orig cur : mblock_t) : Prop :=
  cur.predset = orig.predset ∧ cur.insns.length = orig.insns.length ∧
  ∀ j, cur.insns[j]? =
    (orig.insns[j]?).map (fun ins => if j + 1 < orig.insns.length then ins._make_nop else ins)

/-! ## Code-generation hooks (`plugin.cpp`, lines 6-15 and 126-306) -/

/-- Processor instruction codes (`insn_t::itype`), as far as the hooks test them. -/
inductive itype_t where
  | NN_mov
  | NN_nop
  | NN_other (code : Nat)
  deriving DecidableEq, Repr

/-- Processor operand types (`optype_t`). -/
inductive optype_t where
  | o_void | o_reg | o_mem | o_phrase | o_displ | o_imm | o_far | o_near
  deriving DecidableEq, Repr

/-- A processor operand (`op_t`): its type, its register and its value. -/
structure op_t where
  type : optype_t
  reg : Nat
  value : Nat
  deriving DecidableEq, Repr

/-- A decoded processor instruction (`insn_t`); `ops0` and `ops1` are `ops[0]` and `ops[1]`. -/
structure insn_t where
  itype : itype_t
  ea : Nat
  ops0 : op_t
  ops1 : op_t
  deriving DecidableEq, Repr

/-- The code generator state seen by a microcode filter (`codegen_t`): the instruction being
translated and the block under construction. -/
structure codegen_t where
  insn : insn_t
  mb : mblock_t

/-- The constant `index_self_ref` (line 6). -/
def index_self_ref : Nat := 0x1ED

/-- The loop of `make_pte_base` (lines 10-11), `n` iterations starting with level `l`; the
shift and the result are 64 bits wide. -/
def make_pte_base_loop : Nat → Nat → Nat → Nat
  | 0, _, result => result
  | n + 1, l, result =>
    make_pte_base_loop n (l + 1) (result ||| (index_self_ref <<< (9 * l + 12)) % 2 ^ 64)

/-- The function `make_pte_base` (lines 7-13) in 64-bit unsigned arithmetic, for
`level ≤ max_levels`: the loop runs from `level` up to `max_levels`. -/
def make_pte_base (level max_levels : Nat) : Nat :=
  make_pte_base_loop (max_levels - level) level
    (((2 ^ 64 - 1) <<< (max_levels * 9 + 12)) % 2 ^ 64)

/-- The constant `pfn_list_base_va48` (line 14). -/
def pfn_list_base_va48 : Nat := 0xFFFFFA8000000000

/-- The constant `pfn_list_base_la57` (line 15). -/
def pfn_list_base_la57 : Nat := 0xFFFFDE0000000000

/-- The three variables a classification sets: `intrinsic_getter`, `intrinsic_rtype` and
`intrinsic_offset`. -/
structure intrinsic_t where
  getter : String
  rtype : String
  offset : Nat
  deriving DecidableEq, Repr

/-- The table `bnames` (line 159). -/
def bnames : List String :=
  ["MmGetPml5eBase", "MmGetPml4eBase", "MmGetPdpteBase", "MmGetPdeBase", "MmGetPteBase"]

/-- The table `lnames` (line 160). -/
def lnames : List String :=
  ["MmGetPml5eLimit", "MmGetPml4eLimit", "MmGetPdpteLimit", "MmGetPdeLimit", "MmGetPteLimit"]

/-- The PFN list loop (lines 142-151) over the remaining bases. -/
def classify_pfn_list (imm : Nat) : List Nat → Option intrinsic_t
  | [] => none
  | base :: rest =>
    if base ≤ imm ∧ imm ≤ (base + 48) % 2 ^ 64 then
      some { getter := "MmGetPfnDb", rtype := "_MMPFN", offset := imm - base }
    else classify_pfn_list imm rest

/-- The body of the level loop (lines 164-194) for one level of one paging depth. -/
def classify_level (imm paging_depth level : Nat) : Option intrinsic_t :=
  let pmin := make_pte_base level paging_depth
  let pmax := (pmin + ((1 <<< (12 + 9 * level)) % 2 ^ 64 + 2 ^ 64 - 1) % 2 ^ 64) % 2 ^ 64
  if level = 0 ∧ imm = (pmin + 0x7F8) % 2 ^ 64 then
    some { getter := "MmGetPxeUserLimit", rtype := "_MMPTE", offset := 0 }
  else if level = 0 ∧ imm = (pmin + index_self_ref * 8) % 2 ^ 64 then
    some { getter := "MmGetPxeSelfRef", rtype := "_MMPTE", offset := 0 }
  else if imm = pmax then
    some { getter := lnames.getD (level + (5 - paging_depth)) "", rtype := "_MMPTE",
           offset := 0 }
  else if pmin ≤ imm ∧ imm ≤ pmax then
    some { getter := bnames.getD (level + (5 - paging_depth)) "", rtype := "_MMPTE",
           offset := imm - pmin }
  else none

/-- The level loop (line 162), `n` iterations starting with `level`, left at the first
match. -/
def classify_levels (imm paging_depth : Nat) : Nat → Nat → Option intrinsic_t
  | 0, _ => none
  | n + 1, level =>
    match classify_level imm paging_depth level with
    | some m => some m
    | none => classify_levels imm paging_depth n (level + 1)

/-- The paging depth loop (lines 157-198) over the remaining depths. -/
def classify_page_tables (imm : Nat) : List Nat → Option intrinsic_t
  | [] => none
  | paging_depth :: rest =>
    match classify_levels imm paging_depth paging_depth 0 with
    | some m => some m
    | none => classify_page_tables imm rest

/-- The classification of the immediate by `mm_dyn_reloc_lifter` (lines 134-199): the PFN
list first, then the page tables of depth 4 and 5. -/
def classify_immediate (imm : Nat) : Option intrinsic_t :=
  match classify_pfn_list imm [pfn_list_base_va48, pfn_list_base_la57] with
  | some m => some m
  | none => classify_page_tables imm [4, 5]

/-- The call descriptor both hooks build (lines 215-222 and 287-295). -/
def helper_call_info (return_type : tinfo_t) : mcallinfo_t :=
  { cc := .CM_CC_FASTCALL, callee := none, solid_args := 0, call_spd := 0, stkargs_top := 0,
    role := .ROLE_UNK, flags := [.FCI_FINAL, .FCI_PROP, .FCI_PURE],
    return_type := return_type }

/-- The return type chosen in lines 205-209: a pointer to the named type when the type
library `get_named_type` knows it, else an unsigned 64-bit integer. -/
def intrinsic_return_type (get_named_type : String → Option tinfo_t) (rtype : String) :
    tinfo_t :=
  match get_named_type rtype with
  | some ttype => .ptr ttype
  | none => .BTF_UINT64

/-- The instruction `call_ins` of lines 224-233. -/
def reloc_call_ins (get_named_type : String → Option tinfo_t) (ea : Nat) (m : intrinsic_t) :
    minsn_t :=
  let type := intrinsic_return_type get_named_type m.rtype
  .mk .m_call (.mop_h m.getter) .mop_z (.mop_f (helper_call_info type) .nil type.get_size) ea

/-- The instruction `adjust_ins` of lines 237-245. -/
def reloc_adjust_ins (get_named_type : String → Option tinfo_t) (reg2mreg : Nat → Nat)
    (insn : insn_t) (m : intrinsic_t) : minsn_t :=
  let size := (intrinsic_return_type get_named_type m.rtype).get_size
  .mk .m_add (make_number m.offset size)
    (.mop_d (reloc_call_ins get_named_type insn.ea m) size)
    (.mop_r (reg2mreg insn.ops0.reg) size) insn.ea

/-- The microcode filter `mm_dyn_reloc_lifter` (lines 126-252).  Result: the returned flag and
the code generator state. -/
def mm_dyn_reloc_lifter (get_named_type : String → Option tinfo_t) (reg2mreg : Nat → Nat)
    (cg : codegen_t) : Bool × codegen_t :=
  if cg.insn.itype = .NN_mov ∧ cg.insn.ops0.type = .o_reg ∧ cg.insn.ops1.type = .o_imm then
    match classify_immediate cg.insn.ops1.value with
    | some m =>
      (true, { cg with mb := (cg.mb.insert_into_block_at_tail
          (reloc_adjust_ins get_named_type reg2mreg cg.insn m)).mark_lists_dirty })
    | none => (false, cg)
  else (false, cg)

/-- The instruction `call_ins` of lines 297-302. -/
def flush_rsb_call_ins (ea : Nat) : minsn_t :=
  .mk .m_call (.mop_h "__flush_rsb") .mop_z (.mop_f (helper_call_info .BT_VOID) .nil 0) ea

/-- The microcode filter `isr_rsb_flush_lifter` (lines 274-306) on a database whose bytes are
`img`. -/
def isr_rsb_flush_lifter (img : List Nat) (cg : codegen_t) : Bool × codegen_t :=
  if cg.insn.itype ≠ .NN_nop then (false, cg)
  else if get_bytes img rsb_replace_with.length cg.insn.ea ≠ rsb_replace_with then (false, cg)
  else
    (true, { cg with mb := (cg.mb.insert_into_block_at_tail
        (flush_rsb_call_ins cg.insn.ea)).mark_lists_dirty })

/-! ## The image patcher as the specification words it -/

/-- The single forward scan of the specification (section 4.1), with an iteration budget:
search for the pattern from `start` on; on a match at `p` write the replacement there and
continue searching at `p + 14`, after the match, never before it.  `none` means the budget
ran out. -/
def single_forward_scan_loop : Nat → List Nat → Nat → Option (List Nat)
  | 0, _, _ => none
  | fuel + 1, img, start =>
    match bin_search2 img start img.length rsb_pattern with
    | none => some img
    | some p =>
      single_forward_scan_loop fuel (put_bytes img p rsb_replace_with)
        (p + rsb_pattern.length)

/-- The single forward scan of the specification over the whole image. -/
def single_forward_scan (img : List Nat) : Option (List Nat) :=
  single_forward_scan_loop (img.length + 1) img 0

/-- The number of occurrences of `rsb_pattern` in an image. -/
def rsb_occurrences (img : List Nat) : Nat :=
  (List.range img.length).countP (fun q => match_at img q rsb_pattern)

/-! ## Lemmas on the image primitives -/

theorem match_at_iff (img : List Nat) (pat : List Nat) (ea : Nat) :
    match_at img ea pat = true ↔ ∀ k, k < pat.length → img[ea + k]? = pat[k]? := by
  induction pat generalizing ea with
  | nil => simp [match_at]
  | cons b bs ih =>
    simp only [match_at, Bool.and_eq_true, beq_iff_eq, ih, List.length_cons]
    constructor
    · rintro ⟨h0, hk⟩ k hlt
      cases k with
      | zero => simpa using h0
      | succ k =>
        have := hk k (by omega)
        simpa [Nat.add_assoc, Nat.add_comm 1 k] using this
    · intro h
      refine ⟨by simpa using h 0 (by omega), fun k hk => ?_⟩
      have := h (k + 1) (by omega)
      simpa [Nat.add_assoc, Nat.add_comm 1 k] using this

theorem match_at_bound (img pat : List Nat) (ea : Nat) (hpat : pat ≠ [])
    (h : match_at img ea pat = true) : ea + pat.length ≤ img.length := by
  rw [match_at_iff] at h
  have hpos : 0 < pat.length := List.length_pos.mpr hpat
  have := h (pat.length - 1) (by omega)
  rw [List.getElem?_eq_getElem (by omega : pat.length - 1 < pat.length)] at this
  have hlt := (List.getElem?_eq_some.mp this).1
  omega

theorem scan_forward_some (img pat : List Nat) (n ea p : Nat)
    (h : scan_forward img pat n ea = some p) :
    ea ≤ p ∧ p < ea + n ∧ match_at img p pat = true ∧
      ∀ q, ea ≤ q → q < p → match_at img q pat = false := by
  induction n generalizing ea with
  | zero => simp [scan_forward] at h
  | succ n ih =>
    simp only [scan_forward] at h
    by_cases hm : match_at img ea pat = true
    · simp only [hm, if_true, Option.some.injEq] at h
      subst h
      exact ⟨le_refl _, by omega, hm, fun q h1 h2 => by omega⟩
    · simp only [hm] at h
      obtain ⟨h1, h2, h3, h4⟩ := ih (ea + 1) h
      refine ⟨by omega, by omega, h3, fun q hq1 hq2 => ?_⟩
      by_cases hq : q = ea
      · subst hq; simpa using hm
      · exact h4 q (by omega) hq2

theorem scan_forward_none (img pat : List Nat) (n ea : Nat) :
    scan_forward img pat n ea = none ↔
      ∀ q, ea ≤ q → q < ea + n → match_at img q pat = false := by
  induction n generalizing ea with
  | zero => simp [scan_forward]; intro q h1 h2; omega
  | succ n ih =>
    simp only [scan_forward]
    by_cases hm : match_at img ea pat = true
    · simp only [hm, if_true]
      constructor
      · intro h; cases h
      · intro h
        have := h ea (le_refl _) (by omega)
        rw [hm] at this; cases this
    · rw [if_neg hm, ih]
      constructor
      · intro h q h1 h2
        by_cases hq : q = ea
        · subst hq; simpa using hm
        · exact h q (by omega) (by omega)
      · intro h q h1 h2
        exact h q (by omega) (by omega)

theorem put_bytes_length (img bs : List Nat) (ea : Nat) :
    (put_bytes img ea bs).length = img.length := by
  induction bs generalizing img ea with
  | nil => rfl
  | cons b bs ih => simp [put_bytes, ih]

theorem put_bytes_getElem? (img bs : List Nat) (ea j : Nat) :
    (put_bytes img ea bs)[j]? =
      if ea ≤ j ∧ j < ea + bs.length ∧ j < img.length then bs[j - ea]? else img[j]? := by
  induction bs generalizing img ea with
  | nil =>
    have : ¬ (ea ≤ j ∧ j < ea + ([] : List Nat).length ∧ j < img.length) := by
      simp only [List.length_nil]; omega
    rw [if_neg this]; rfl
  | cons b bs ih =>
    simp only [put_bytes, ih, List.length_set, List.length_cons]
    by_cases h1 : ea + 1 ≤ j ∧ j < ea + 1 + bs.length ∧ j < img.length
    · rw [if_pos h1, if_pos (by omega)]
      have : j - ea = (j - (ea + 1)) + 1 := by omega
      rw [this, List.getElem?_cons_succ]
    · rw [if_neg h1]
      by_cases h2 : ea = j
      · subst h2
        by_cases h3 : ea < img.length
        · rw [if_pos (by omega)]
          simp [List.getElem?_set, h3]
        · rw [if_neg (by omega)]
          simp [List.getElem?_set, h3]
          omega
      · rw [if_neg (by omega)]
        simp [List.getElem?_set, h2]

theorem rsb_replace_with_no_call_opcode :
    ∀ j, j < 14 → rsb_replace_with[j]? ≠ some 0xE8 := by decide

theorem rsb_pattern_no_operand_size_override :
    ∀ k, k < 14 → rsb_pattern[k]? ≠ some 0x66 := by decide

/-- A window that does not meet the overwritten one is read back unchanged. -/
theorem match_at_put_bytes_disjoint (img pat bs : List Nat) (p q : Nat)
    (h : q + pat.length ≤ p ∨ p + bs.length ≤ q) :
    match_at (put_bytes img p bs) q pat = match_at img q pat := by
  have key : ∀ k, k < pat.length → (put_bytes img p bs)[q + k]? = img[q + k]? := by
    intro k hk
    rw [put_bytes_getElem?, if_neg (by omega)]
  rw [Bool.eq_iff_iff, match_at_iff, match_at_iff]
  constructor
  · intro h1 k hk; rw [← key k hk]; exact h1 k hk
  · intro h1 k hk; rw [key k hk]; exact h1 k hk

/-- After a match at `p` has been overwritten, no occurrence of the pattern meets the
overwritten window. -/
theorem match_after_patch (img : List Nat) (p q : Nat)
    (hp : match_at img p rsb_pattern = true)
    (hq : match_at (put_bytes img p rsb_replace_with) q rsb_pattern = true) :
    q + 14 ≤ p ∨ p + 14 ≤ q := by
  have hb : p + 14 ≤ img.length := match_at_bound img rsb_pattern p (by decide) hp
  rw [match_at_iff] at hq
  by_contra hcon
  have hlen : rsb_replace_with.length = 14 := rfl
  have hlen2 : rsb_pattern.length = 14 := rfl
  by_cases hge : p ≤ q
  · have h0 := hq 0 (by rw [hlen2]; omega)
    rw [put_bytes_getElem?, if_pos (by rw [hlen]; omega)] at h0
    exact rsb_replace_with_no_call_opcode (q + 0 - p) (by omega) h0
  · have h0 := hq (p - q) (by rw [hlen2]; omega)
    have e : q + (p - q) = p := by omega
    rw [e, put_bytes_getElem?, if_pos (by rw [hlen]; omega), Nat.sub_self] at h0
    exact rsb_pattern_no_operand_size_override (p - q) (by omega) h0.symm

theorem put_bytes_match_self (img bs : List Nat) (p : Nat) (h : p + bs.length ≤ img.length) :
    match_at (put_bytes img p bs) p bs = true := by
  rw [match_at_iff]
  intro k hk
  rw [put_bytes_getElem?, if_pos (by omega)]
  congr 1; omega

/-- Invariant of the loop of `remove_rsb_flush`: started on an image without a match below
`lo`, the loop ends within the budget, and its result is described by the log `ps` of
overwritten addresses. -/
theorem remove_rsb_flush_loop_spec (fuel : Nat) :
    ∀ (img log : List Nat) (lo : Nat), lo ≤ img.length →
      (∀ q, q < lo → match_at img q rsb_pattern = false) →
      img.length + 1 ≤ fuel + lo →
      ∃ final ps, remove_rsb_flush_loop fuel img log = some (final, log ++ ps) ∧
        final.length = img.length ∧
        (∀ j, (∀ p ∈ ps, j < p ∨ p + 14 ≤ j) → final[j]? = img[j]?) ∧
        (∀ p ∈ ps, lo ≤ p ∧ match_at img p rsb_pattern = true ∧
          match_at final p rsb_replace_with = true) ∧
        (∀ q, match_at final q rsb_pattern = false) ∧
        List.Pairwise (fun a b => a + 14 ≤ b) ps := by
  induction fuel with
  | zero => intro img log lo h1 _ h3; omega
  | succ fuel ih =>
    intro img log lo hlo hno hfuel
    simp only [remove_rsb_flush_loop]
    cases hs : bin_search2 img 0 img.length rsb_pattern with
    | none =>
      refine ⟨img, [], by simp, rfl, fun _ _ => rfl, by simp, ?_, List.Pairwise.nil⟩
      intro q
      by_cases hq : q < img.length
      · exact (scan_forward_none img rsb_pattern (img.length - 0) 0).mp hs q (by omega) (by omega)
      · by_contra hc
        have : q + 14 ≤ img.length :=
          match_at_bound img rsb_pattern q (by decide) (by simpa using hc)
        omega
    | some p =>
      obtain ⟨_, hplt, hpm, hpfirst⟩ := scan_forward_some img rsb_pattern _ 0 p hs
      have hb : p + 14 ≤ img.length := match_at_bound img rsb_pattern p (by decide) hpm
      have hlop : lo ≤ p := by
        by_contra hc
        have := hno p (by omega)
        rw [hpm] at this; cases this
      have hno2 : ∀ q, q < p + 14 →
          match_at (put_bytes img p rsb_replace_with) q rsb_pattern = false := by
        intro q hq
        by_contra hc
        have hc2 : match_at (put_bytes img p rsb_replace_with) q rsb_pattern = true := by
          simpa using hc
        have hdis := match_after_patch img p q hpm hc2
        rw [match_at_put_bytes_disjoint img rsb_pattern rsb_replace_with p q hdis] at hc2
        rw [hpfirst q (by omega) (by omega)] at hc2
        cases hc2
      obtain ⟨final, ps, hrun, hlen, hframe, hps, hclean, hpw⟩ :=
        ih (put_bytes img p rsb_replace_with) (log ++ [p]) (p + 14)
          (by rw [put_bytes_length]; exact hb) hno2 (by rw [put_bytes_length]; omega)
      refine ⟨final, p :: ps, by simpa using hrun, by rw [hlen, put_bytes_length], ?_, ?_,
        hclean, List.pairwise_cons.mpr ⟨fun b hbm => (hps b hbm).1, hpw⟩⟩
      · intro j hj
        rw [hframe j (fun b hbm => hj b (List.mem_cons_of_mem _ hbm)), put_bytes_getElem?,
          if_neg]
        have := hj p (List.mem_cons_self _ _)
        have hl : rsb_replace_with.length = 14 := rfl
        omega
      · intro b hbm
        rcases List.mem_cons.mp hbm with rfl | hbm
        · refine ⟨hlop, hpm, ?_⟩
          have hself := put_bytes_match_self img rsb_replace_with b hb
          rw [match_at_iff] at hself ⊢
          intro k hk
          rw [hframe (b + k) (fun c hc => Or.inl (by have := (hps c hc).1; have hl : rsb_replace_with.length = 14 := rfl; omega))]
          exact hself k hk
        · obtain ⟨h1, h2, h3⟩ := hps b hbm
          refine ⟨by omega, ?_, h3⟩
          rw [match_at_put_bytes_disjoint img rsb_pattern rsb_replace_with p b
            (Or.inr (by have hl : rsb_replace_with.length = 14 := rfl; omega))] at h2
          exact h2

/-- The loop of `remove_rsb_flush` always ends within the budget of `remove_rsb_flush_run`. -/
theorem remove_rsb_flush_run_spec (img : List Nat) :
    ∃ final ps, remove_rsb_flush_run img = some (final, ps) ∧
        final.length = img.length ∧
        (∀ j, (∀ p ∈ ps, j < p ∨ p + 14 ≤ j) → final[j]? = img[j]?) ∧
        (∀ p ∈ ps, match_at img p rsb_pattern = true ∧
          match_at final p rsb_replace_with = true) ∧
        (∀ q, match_at final q rsb_pattern = false) ∧
        List.Pairwise (fun a b => a + 14 ≤ b) ps := by
  obtain ⟨final, ps, h1, h2, h3, h4, h5, h6⟩ :=
    remove_rsb_flush_loop_spec (img.length + 1) img [] 0 (Nat.zero_le _)
      (fun q hq => by omega) (by omega)
  exact ⟨final, ps, by simpa [remove_rsb_flush_run] using h1, h2, h3,
    fun p hp => ⟨(h4 p hp).2.1, (h4 p hp).2.2⟩, h5, h6⟩


/-! ## The image patcher on an image with one occurrence -/

theorem get_bytes_of_match_at (img bs : List Nat) (ea off n : Nat)
    (h : match_at img ea bs = true) (hn : off + n ≤ bs.length) :
    get_bytes img n (ea + off) = (bs.drop off).take n := by
  rw [match_at_iff] at h
  apply List.ext_getElem?
  intro k
  by_cases hk : k < n
  · have h1 := h (off + k) (by omega)
    have h2 : off + k < bs.length := by omega
    rw [List.getElem?_eq_getElem h2] at h1
    obtain ⟨hlt, hval⟩ := List.getElem?_eq_some.mp h1
    simp only [get_bytes, List.getElem?_map, List.getElem?_range hk, Option.map_some',
      List.getElem?_take, hk, if_true, List.getElem?_drop]
    rw [List.getElem?_eq_getElem h2, List.getD_eq_getElem?_getD]
    have e : ea + off + k = ea + (off + k) := by omega
    rw [e, List.getElem?_eq_getElem hlt, hval]
    rfl
  · have l1 : (get_bytes img n (ea + off)).length = n := by simp [get_bytes]
    have l2 : ((bs.drop off).take n).length = n := by
      simp only [List.length_take, List.length_drop]; omega
    rw [List.getElem?_eq_none (by omega), List.getElem?_eq_none (by omega)]

/-- C1: on an image holding `rsb_pattern` exactly once, at offset `p`, `remove_rsb_flush`
returns an image of the same length whose bytes `p..p+8` are the sentinel no-op
`66 0F 1F 84 DE AD C0 FE FE` and whose bytes `p+9..p+13` are `E9 12 01 00 00`, a near jump
whose `rel32` (`0x112`) is the `rel32` of the second call of the input (`0x10E`) plus 4; a
search of the result for `rsb_pattern` finds nothing. -/
theorem remove_rsb_flush_single_occurrence (img : List Nat) (p : Nat)
    (hocc : match_at img p rsb_pattern = true)
    (huniq : ∀ q, match_at img q rsb_pattern = true → q = p) :
    ∃ out, remove_rsb_flush img = some out ∧
      out.length = img.length ∧
      get_bytes out 9 p = [0x66, 0x0F, 0x1F, 0x84, 0xDE, 0xAD, 0xC0, 0xFE, 0xFE] ∧
      get_bytes out 5 (p + 9) = [0xE9, 0x12, 0x01, 0x00, 0x00] ∧
      le_value (get_bytes out 4 (p + 10)) = 0x112 ∧
      le_value (get_bytes img 4 (p + 10)) = 0x10E ∧
      le_value (get_bytes out 4 (p + 10)) = le_value (get_bytes img 4 (p + 10)) + 4 ∧
      bin_search2 out 0 out.length rsb_pattern = none := by
  obtain ⟨final, ps, hrun, hlen, hframe, hps, hclean, hpw⟩ := remove_rsb_flush_run_spec img
  have hmem : p ∈ ps := by
    by_contra hnot
    have hall : ∀ b ∈ ps, b = p := fun b hb => huniq b (hps b hb).1
    have hnil : ps = [] := by
      cases ps with
      | nil => rfl
      | cons b t => exact absurd (by rw [hall b (List.mem_cons_self _ _)]; exact List.mem_cons_self _ _) hnot
    have heq : final = img := by
      apply List.ext_getElem?
      intro j
      exact hframe j (by rw [hnil]; intro b hb; cases hb)
    have hp := hclean p
    rw [heq, hocc] at hp
    cases hp
  have hrepl := (hps p hmem).2
  have e1 := get_bytes_of_match_at final rsb_replace_with p 0 9 hrepl (by decide)
  have e2 := get_bytes_of_match_at final rsb_replace_with p 9 5 hrepl (by decide)
  have e3 := get_bytes_of_match_at final rsb_replace_with p 10 4 hrepl (by decide)
  have e4 := get_bytes_of_match_at img rsb_pattern p 10 4 hocc (by decide)
  refine ⟨final, by simp [remove_rsb_flush, hrun], hlen, e1, e2, ?_, ?_, ?_, ?_⟩
  · rw [e3]; rfl
  · rw [e4]; rfl
  · rw [e3, e4]; rfl
  · rw [bin_search2, scan_forward_none]
    intro q _ _
    exact hclean q

/-- Witness for C1: the pattern between two bytes on the left and one on the right. -/
theorem remove_rsb_flush_single_occurrence_witness :
    ∃ out, remove_rsb_flush ([0x90, 0xCC] ++ rsb_pattern ++ [0xC3]) = some out ∧
      out.length = ([0x90, 0xCC] ++ rsb_pattern ++ [0xC3]).length ∧
      get_bytes out 9 2 = [0x66, 0x0F, 0x1F, 0x84, 0xDE, 0xAD, 0xC0, 0xFE, 0xFE] ∧
      get_bytes out 5 (2 + 9) = [0xE9, 0x12, 0x01, 0x00, 0x00] ∧
      le_value (get_bytes out 4 (2 + 10)) = 0x112 ∧
      le_value (get_bytes ([0x90, 0xCC] ++ rsb_pattern ++ [0xC3]) 4 (2 + 10)) = 0x10E ∧
      le_value (get_bytes out 4 (2 + 10)) =
        le_value (get_bytes ([0x90, 0xCC] ++ rsb_pattern ++ [0xC3]) 4 (2 + 10)) + 4 ∧
      bin_search2 out 0 out.length rsb_pattern = none :=
  remove_rsb_flush_single_occurrence ([0x90, 0xCC] ++ rsb_pattern ++ [0xC3]) 2 (by decide)
    (by
      intro q hq
      have hb : q + 14 ≤ 17 :=
        match_at_bound ([0x90, 0xCC] ++ rsb_pattern ++ [0xC3]) rsb_pattern q (by decide) hq
      have hq3 : q < 4 := by omega
      interval_cases q
      · exact absurd hq (by decide)
      · exact absurd hq (by decide)
      · rfl
      · exact absurd hq (by decide))

/-! ## The sentinel recognizer -/

theorem isr_rsb_flush_lifter_not_nop (img : List Nat) (cg : codegen_t)
    (h : cg.insn.itype ≠ .NN_nop) : isr_rsb_flush_lifter img cg = (false, cg) := by
  simp [isr_rsb_flush_lifter, h]

theorem isr_rsb_flush_lifter_mismatch (img : List Nat) (cg : codegen_t)
    (h : get_bytes img 14 cg.insn.ea ≠ rsb_replace_with) :
    isr_rsb_flush_lifter img cg = (false, cg) := by
  have hl : rsb_replace_with.length = 14 := rfl
  by_cases hn : cg.insn.itype = .NN_nop
  · simp [isr_rsb_flush_lifter, hn, hl, h]
  · exact isr_rsb_flush_lifter_not_nop img cg hn

theorem isr_rsb_flush_lifter_match (img : List Nat) (cg : codegen_t)
    (hn : cg.insn.itype = .NN_nop) (h : get_bytes img 14 cg.insn.ea = rsb_replace_with) :
    isr_rsb_flush_lifter img cg =
      (true, { cg with mb :=
        { insns := cg.mb.insns ++ [flush_rsb_call_ins cg.insn.ea],
          predset := cg.mb.predset, lists_dirty := true } }) := by
  have hl : rsb_replace_with.length = 14 := rfl
  simp [isr_rsb_flush_lifter, hn, hl, h, mblock_t.insert_into_block_at_tail,
    mblock_t.mark_lists_dirty]

theorem get_bytes_getElem? (img : List Nat) (n ea k : Nat) (hk : k < n) :
    (get_bytes img n ea)[k]? = some (img.getD (ea + k) 0xFF) := by
  simp [get_bytes, List.getElem?_range hk]

theorem rsb_replace_with_no_unloaded_byte :
    ∀ k, k < 14 → rsb_replace_with[k]? ≠ some 0xFF := by decide

/-- A single changed byte of the sentinel is seen by `get_bytes`. -/
theorem get_bytes_set_ne (img : List Nat) (ea i b : Nat) (hi : i < 14)
    (h : get_bytes img 14 ea = rsb_replace_with) (hb : some b ≠ rsb_replace_with[i]?) :
    get_bytes (img.set (ea + i) b) 14 ea ≠ rsb_replace_with := by
  intro hcon
  have h1 := get_bytes_getElem? img 14 ea i hi
  rw [h] at h1
  have hin : ea + i < img.length := by
    by_contra hout
    rw [List.getD_eq_default _ _ (by omega)] at h1
    exact rsb_replace_with_no_unloaded_byte i hi h1
  have h2 := get_bytes_getElem? (img.set (ea + i) b) 14 ea i hi
  rw [hcon, List.getD_eq_getElem?_getD, List.getElem?_set_self hin] at h2
  exact hb h2.symm

/-- C2: for an instruction decoded as a no-op at `ea`, `isr_rsb_flush_lifter` returns true
exactly when the 14 bytes at `ea` are `rsb_replace_with`, and it then appends one call of the
helper `__flush_rsb`, without arguments and of return type void, at the tail of the block and
marks the block dirty; on a mismatch it returns false and changes nothing, in particular when
one byte `i` of a matching image is changed to a value other than `rsb_replace_with[i]`.  For
an instruction that is not a no-op it returns false and changes nothing, whatever the bytes
are. -/
theorem isr_rsb_flush_lifter_fires_iff (img : List Nat) (cg : codegen_t) :
    (cg.insn.itype = .NN_nop →
      ((isr_rsb_flush_lifter img cg).1 = true ↔
        get_bytes img 14 cg.insn.ea = rsb_replace_with) ∧
      (get_bytes img 14 cg.insn.ea = rsb_replace_with →
        isr_rsb_flush_lifter img cg =
          (true, { cg with mb :=
            { insns := cg.mb.insns ++
                [.mk .m_call (.mop_h "__flush_rsb") .mop_z
                  (.mop_f { cc := .CM_CC_FASTCALL, callee := none, solid_args := 0,
                            call_spd := 0, stkargs_top := 0, role := .ROLE_UNK,
                            flags := [.FCI_FINAL, .FCI_PROP, .FCI_PURE],
                            return_type := .BT_VOID } .nil 0) cg.insn.ea],
              predset := cg.mb.predset, lists_dirty := true } })) ∧
      (get_bytes img 14 cg.insn.ea ≠ rsb_replace_with →
        isr_rsb_flush_lifter img cg = (false, cg)) ∧
      (∀ i b, i < 14 → some b ≠ rsb_replace_with[i]? →
        get_bytes img 14 cg.insn.ea = rsb_replace_with →
        isr_rsb_flush_lifter (img.set (cg.insn.ea + i) b) cg = (false, cg))) ∧
    (cg.insn.itype ≠ .NN_nop → isr_rsb_flush_lifter img cg = (false, cg)) := by
  refine ⟨fun hn => ⟨?_, ?_, ?_, ?_⟩, isr_rsb_flush_lifter_not_nop img cg⟩
  · constructor
    · intro h
      by_contra hne
      rw [isr_rsb_flush_lifter_mismatch img cg hne] at h
      cases h
    · intro h
      rw [isr_rsb_flush_lifter_match img cg hn h]
  · intro h
    exact isr_rsb_flush_lifter_match img cg hn h
  · exact isr_rsb_flush_lifter_mismatch img cg
  · intro i b hi hb h
    exact isr_rsb_flush_lifter_mismatch _ cg (get_bytes_set_ne img cg.insn.ea i b hi h hb)

/-- Witness for C2: a no-op decoded at address 1 of an image holding the sentinel there fires
on the image and is inert once byte 4 of the sentinel is changed from `DE` to `DF`. -/
theorem isr_rsb_flush_lifter_fires_iff_witness :
    (isr_rsb_flush_lifter (0xCC :: rsb_replace_with)
      { insn := { itype := .NN_nop, ea := 1, ops0 := ⟨.o_void, 0, 0⟩, ops1 := ⟨.o_void, 0, 0⟩ },
        mb := { insns := [], predset := [], lists_dirty := false } }).1 = true ∧
    (isr_rsb_flush_lifter ((0xCC :: rsb_replace_with).set (1 + 4) 0xDF)
      { insn := { itype := .NN_nop, ea := 1, ops0 := ⟨.o_void, 0, 0⟩, ops1 := ⟨.o_void, 0, 0⟩ },
        mb := { insns := [], predset := [], lists_dirty := false } }).1 = false :=
  have h := isr_rsb_flush_lifter_fires_iff (0xCC :: rsb_replace_with)
      { insn := { itype := .NN_nop, ea := 1, ops0 := ⟨.o_void, 0, 0⟩, ops1 := ⟨.o_void, 0, 0⟩ },
        mb := { insns := [], predset := [], lists_dirty := false } }
  ⟨(h.1 rfl).1.mpr (by decide),
   by rw [(h.1 rfl).2.2.2 4 0xDF (by decide) (by decide) (by decide)]⟩

/-! ## The two-phase protocol -/

/-- C3: `remove_rsb_flush` ends on every image, and at every address `p` it has overwritten
during its run the final image holds the 14 bytes of `rsb_replace_with` (no later overwrite
touches an earlier one), so that `isr_rsb_flush_lifter` fires on a no-op decoded at `p`. -/
theorem remove_rsb_flush_then_lifter_fires (img : List Nat) :
    ∃ final ps, remove_rsb_flush_run img = some (final, ps) ∧
      ∀ p ∈ ps, get_bytes final 14 p = rsb_replace_with ∧
        ∀ cg : codegen_t, cg.insn.itype = .NN_nop → cg.insn.ea = p →
          (isr_rsb_flush_lifter final cg).1 = true := by
  obtain ⟨final, ps, hrun, _, _, hps, _, _⟩ := remove_rsb_flush_run_spec img
  refine ⟨final, ps, hrun, fun p hp => ?_⟩
  have hb : get_bytes final 14 p = rsb_replace_with :=
    get_bytes_of_match_at final rsb_replace_with p 0 14 (hps p hp).2 (by decide)
  refine ⟨hb, fun cg hn hea => ?_⟩
  subst hea
  rw [isr_rsb_flush_lifter_match final cg hn hb]

/-! ## The semantic accessor lifter -/

/-- Base address of the range of level `l` under paging depth `d`, as `classify_level`
computes it. -/
theorem make_pte_base_values :
    make_pte_base 0 4 = 0xFFFFF6FB7DBED000 ∧ make_pte_base 1 4 = 0xFFFFF6FB7DA00000 ∧
    make_pte_base 2 4 = 0xFFFFF6FB40000000 ∧ make_pte_base 3 4 = 0xFFFFF68000000000 ∧
    make_pte_base 0 5 = 0xFFEDF6FB7DBED000 ∧ make_pte_base 1 5 = 0xFFEDF6FB7DA00000 ∧
    make_pte_base 2 5 = 0xFFEDF6FB40000000 ∧ make_pte_base 3 5 = 0xFFEDF68000000000 ∧
    make_pte_base 4 5 = 0xFFED000000000000 := by decide

/-- A level of a paging depth does not match exactly outside its range. -/
theorem classify_level_none_iff (imm d l : Nat) (hd : d = 4 ∨ d = 5) (hl : l < d) :
    classify_level imm d l = none ↔
      (imm < make_pte_base l d ∨ make_pte_base l d + 2 ^ (12 + 9 * l) - 1 < imm) := by
  obtain ⟨h1, h2, h3, h4, h5, h6, h7, h8, h9⟩ := make_pte_base_values
  rcases hd with rfl | rfl <;> interval_cases l <;>
    simp only [classify_level, h1, h2, h3, h4, h5, h6, h7, h8, h9, Nat.shiftLeft_eq] <;>
    norm_num [index_self_ref, lnames, bnames] <;>
    split_ifs <;> simp <;> omega

/-- Strictly inside its range a level of a paging depth reports its base accessor, the two
special entries of level 0 apart. -/
theorem classify_level_base (imm d l : Nat) (hd : d = 4 ∨ d = 5) (hl : l < d)
    (hlo : make_pte_base l d < imm) (hhi : imm < make_pte_base l d + 2 ^ (12 + 9 * l) - 1)
    (hsp : l = 0 → imm ≠ make_pte_base 0 d + 0x7F8 ∧ imm ≠ make_pte_base 0 d + 0xF68) :
    classify_level imm d l =
      some { getter := bnames.getD (l + 5 - d) "", rtype := "_MMPTE",
             offset := imm - make_pte_base l d } := by
  obtain ⟨h1, h2, h3, h4, h5, h6, h7, h8, h9⟩ := make_pte_base_values
  rcases hd with rfl | rfl <;> interval_cases l <;>
    simp only [h1, h2, h3, h4, h5, h6, h7, h8, h9] at hlo hhi hsp <;>
    simp only [classify_level, h1, h2, h3, h4, h5, h6, h7, h8, h9, Nat.shiftLeft_eq] <;>
    norm_num [index_self_ref, lnames, bnames] at hlo hhi hsp ⊢ <;>
    split_ifs <;> first | omega | simp

theorem classify_levels_none_iff (imm d : Nat) (n l0 : Nat) :
    classify_levels imm d n l0 = none ↔
      ∀ l, l0 ≤ l → l < l0 + n → classify_level imm d l = none := by
  induction n generalizing l0 with
  | zero => simp [classify_levels]; intro l h1 h2; omega
  | succ n ih =>
    simp only [classify_levels]
    cases hc : classify_level imm d l0 with
    | some m =>
      simp only [false_iff, reduceCtorEq]
      intro h
      have := h l0 (le_refl _) (by omega)
      rw [hc] at this; cases this
    | none =>
      simp only [ih]
      constructor
      · intro h l h1 h2
        by_cases hl : l = l0
        · subst hl; exact hc
        · exact h l (by omega) (by omega)
      · intro h l h1 h2
        exact h l (by omega) (by omega)

theorem classify_levels_first (imm d : Nat) (m : intrinsic_t) (n l0 l : Nat)
    (h1 : l0 ≤ l) (h2 : l < l0 + n)
    (hlow : ∀ k, l0 ≤ k → k < l → classify_level imm d k = none)
    (hm : classify_level imm d l = some m) :
    classify_levels imm d n l0 = some m := by
  induction n generalizing l0 with
  | zero => omega
  | succ n ih =>
    simp only [classify_levels]
    by_cases hl : l = l0
    · subst hl; rw [hm]
    · rw [hlow l0 (le_refl _) (by omega)]
      exact ih (l0 + 1) (by omega) (by omega) (fun k hk1 hk2 => hlow k (by omega) hk2)

theorem classify_pfn_list_none_iff (imm : Nat) :
    classify_pfn_list imm [pfn_list_base_va48, pfn_list_base_la57] = none ↔
      ¬ (pfn_list_base_va48 ≤ imm ∧ imm ≤ pfn_list_base_va48 + 48) ∧
      ¬ (pfn_list_base_la57 ≤ imm ∧ imm ≤ pfn_list_base_la57 + 48) := by
  simp only [classify_pfn_list, pfn_list_base_va48, pfn_list_base_la57]
  norm_num
  split_ifs <;> simp <;> omega

theorem classify_immediate_none_iff (imm : Nat) :
    classify_immediate imm = none ↔
      classify_pfn_list imm [pfn_list_base_va48, pfn_list_base_la57] = none ∧
      (∀ l, l < 4 → classify_level imm 4 l = none) ∧
      (∀ l, l < 5 → classify_level imm 5 l = none) := by
  have e4 := classify_levels_none_iff imm 4 4 0
  have e5 := classify_levels_none_iff imm 5 5 0
  simp only [Nat.zero_le, Nat.zero_add, forall_const] at e4 e5
  rw [← e4, ← e5]
  simp only [classify_immediate, classify_page_tables]
  cases classify_pfn_list imm [pfn_list_base_va48, pfn_list_base_la57] <;>
    cases classify_levels imm 4 4 0 <;> cases classify_levels imm 5 5 0 <;> simp

/-- The classification is the answer of level `l` of depth `d` when nothing before it in
the order of evaluation matches. -/
theorem classify_immediate_eq_level (imm d l : Nat) (m : intrinsic_t)
    (hd : d = 4 ∨ d = 5) (hl : l < d)
    (hpfn : classify_pfn_list imm [pfn_list_base_va48, pfn_list_base_la57] = none)
    (hlow : ∀ k, k < l → classify_level imm d k = none)
    (hother : d = 5 → ∀ k, k < 4 → classify_level imm 4 k = none)
    (hm : classify_level imm d l = some m) :
    classify_immediate imm = some m := by
  simp only [classify_immediate, classify_page_tables, hpfn]
  rcases hd with rfl | rfl
  · rw [classify_levels_first imm 4 m 4 0 l (Nat.zero_le _) (by omega)
      (fun k _ hk => hlow k hk) hm]
  · have h4 : classify_levels imm 4 4 0 = none :=
      (classify_levels_none_iff imm 4 4 0).mpr (fun k _ hk => hother rfl k (by omega))
    rw [h4]
    simp only
    rw [classify_levels_first imm 5 m 5 0 l (Nat.zero_le _) (by omega)
      (fun k _ hk => hlow k hk) hm]

theorem mm_dyn_reloc_lifter_of_match (get_named_type : String → Option tinfo_t)
    (reg2mreg : Nat → Nat) (cg : codegen_t) (m : intrinsic_t)
    (hshape : cg.insn.itype = .NN_mov ∧ cg.insn.ops0.type = .o_reg ∧
      cg.insn.ops1.type = .o_imm)
    (hm : classify_immediate cg.insn.ops1.value = some m) :
    mm_dyn_reloc_lifter get_named_type reg2mreg cg =
      (true, { cg with mb :=
        { insns := cg.mb.insns ++ [reloc_adjust_ins get_named_type reg2mreg cg.insn m],
          predset := cg.mb.predset, lists_dirty := true } }) := by
  simp [mm_dyn_reloc_lifter, hshape, hm, mblock_t.insert_into_block_at_tail,
    mblock_t.mark_lists_dirty]

theorem mm_dyn_reloc_lifter_of_no_match (get_named_type : String → Option tinfo_t)
    (reg2mreg : Nat → Nat) (cg : codegen_t)
    (h : ¬ (cg.insn.itype = .NN_mov ∧ cg.insn.ops0.type = .o_reg ∧
        cg.insn.ops1.type = .o_imm) ∨ classify_immediate cg.insn.ops1.value = none) :
    mm_dyn_reloc_lifter get_named_type reg2mreg cg = (false, cg) := by
  rcases h with h | h
  · simp only [mm_dyn_reloc_lifter, if_neg h]
  · simp only [mm_dyn_reloc_lifter, h]
    split_ifs <;> rfl

/-- C4: for paging depth `d` in `{4, 5}` and level `l < d`, the immediate equal to the limit
address `make_pte_base l d + 2 ^ (12 + 9 * l) - 1` of the family is classified as the limit
accessor `lnames[l + 5 - d]` with offset 0: the PFN list does not match it, no lower level of
the depth matches it (the special entries of level 0 included), depth 4 does not match it
when `d = 5`, and `mm_dyn_reloc_lifter` on a `mov reg, imm` with this immediate appends the
adjusted call of that accessor. -/
theorem mm_dyn_reloc_lifter_limit (d l : Nat) (hd : d = 4 ∨ d = 5) (hl : l < d) :
    classify_immediate (make_pte_base l d + 2 ^ (12 + 9 * l) - 1) =
      some { getter := lnames.getD (l + 5 - d) "", rtype := "_MMPTE", offset := 0 } ∧
    lnames.getD (l + 5 - d) "" ∈ lnames ∧
    classify_pfn_list (make_pte_base l d + 2 ^ (12 + 9 * l) - 1)
      [pfn_list_base_va48, pfn_list_base_la57] = none ∧
    (∀ k, k < l → classify_level (make_pte_base l d + 2 ^ (12 + 9 * l) - 1) d k = none) ∧
    (d = 5 → classify_levels (make_pte_base l d + 2 ^ (12 + 9 * l) - 1) 4 4 0 = none) ∧
    (∀ (get_named_type : String → Option tinfo_t) (reg2mreg : Nat → Nat) (cg : codegen_t),
      cg.insn.itype = .NN_mov → cg.insn.ops0.type = .o_reg → cg.insn.ops1.type = .o_imm →
      cg.insn.ops1.value = make_pte_base l d + 2 ^ (12 + 9 * l) - 1 →
      mm_dyn_reloc_lifter get_named_type reg2mreg cg =
        (true, { cg with mb :=
          { insns := cg.mb.insns ++ [reloc_adjust_ins get_named_type reg2mreg cg.insn
              { getter := lnames.getD (l + 5 - d) "", rtype := "_MMPTE", offset := 0 }],
            predset := cg.mb.predset, lists_dirty := true } })) := by
  have hcl : classify_immediate (make_pte_base l d + 2 ^ (12 + 9 * l) - 1) =
      some { getter := lnames.getD (l + 5 - d) "", rtype := "_MMPTE", offset := 0 } := by
    rcases hd with rfl | rfl <;> interval_cases l <;> decide
  refine ⟨hcl, ?_, ?_, ?_, ?_, ?_⟩
  · rcases hd with rfl | rfl <;> interval_cases l <;> decide
  · rcases hd with rfl | rfl <;> interval_cases l <;> decide
  · rcases hd with rfl | rfl <;> interval_cases l <;> decide
  · rcases hd with rfl | rfl <;> interval_cases l <;> decide
  · intro get_named_type reg2mreg cg h1 h2 h3 h4
    exact mm_dyn_reloc_lifter_of_match get_named_type reg2mreg cg _ ⟨h1, h2, h3⟩
      (by rw [h4]; exact hcl)

/-- Witness for C4: the limit of level 1 of depth 4 is `0xFFFFF6FB7DBFFFFF`. -/
theorem mm_dyn_reloc_lifter_limit_witness :
    (4 = 4 ∨ 4 = 5) ∧ 1 < 4 ∧
    make_pte_base 1 4 + 2 ^ (12 + 9 * 1) - 1 = 0xFFFFF6FB7DBFFFFF ∧
    classify_immediate (make_pte_base 1 4 + 2 ^ (12 + 9 * 1) - 1) =
      some { getter := lnames.getD (1 + 5 - 4) "", rtype := "_MMPTE", offset := 0 } ∧
    lnames.getD (1 + 5 - 4) "" = "MmGetPdpteLimit" :=
  ⟨Or.inl rfl, by decide, by decide,
    (mm_dyn_reloc_lifter_limit 4 1 (Or.inl rfl) (by decide)).1, by decide⟩

/-- C5 as stated fails: `0xFFFFF6FB7DBED001` lies strictly between base and limit of level 1
of depth 4, but level 0 is asked first and answers with its own base accessor and offset 1;
and `make_pte_base 0 4 + 0x7F8` lies strictly between base and limit of level 0 but is one of
its two special entries. -/
theorem mm_dyn_reloc_lifter_base_counterexample :
    ((4 = 4 ∨ 4 = 5) ∧ 1 < 4 ∧ make_pte_base 1 4 < 0xFFFFF6FB7DBED001 ∧
      0xFFFFF6FB7DBED001 < make_pte_base 1 4 + 2 ^ (12 + 9 * 1) - 1 ∧
      classify_immediate 0xFFFFF6FB7DBED001 =
        some { getter := "MmGetPml4eBase", rtype := "_MMPTE", offset := 1 } ∧
      classify_immediate 0xFFFFF6FB7DBED001 ≠
        some { getter := bnames.getD (1 + 5 - 4) "", rtype := "_MMPTE",
               offset := 0xFFFFF6FB7DBED001 - make_pte_base 1 4 }) ∧
    ((4 = 4 ∨ 4 = 5) ∧ 0 < 4 ∧ make_pte_base 0 4 < make_pte_base 0 4 + 0x7F8 ∧
      make_pte_base 0 4 + 0x7F8 < make_pte_base 0 4 + 2 ^ (12 + 9 * 0) - 1 ∧
      classify_immediate (make_pte_base 0 4 + 0x7F8) =
        some { getter := "MmGetPxeUserLimit", rtype := "_MMPTE", offset := 0 } ∧
      classify_immediate (make_pte_base 0 4 + 0x7F8) ≠
        some { getter := bnames.getD (0 + 5 - 4) "", rtype := "_MMPTE",
               offset := make_pte_base 0 4 + 0x7F8 - make_pte_base 0 4 }) := by
  decide

/-- The ranges of one paging depth are nested: the range of a level lies inside the range
of the next level. -/
theorem pte_ranges_nested (d k : Nat) (hd : d = 4 ∨ d = 5) (hk : k + 1 < d) :
    make_pte_base (k + 1) d ≤ make_pte_base k d ∧
    make_pte_base k d + 2 ^ (12 + 9 * k) - 1 ≤
      make_pte_base (k + 1) d + 2 ^ (12 + 9 * (k + 1)) - 1 := by
  rcases hd with rfl | rfl
  · have hk3 : k < 3 := by omega
    interval_cases k <;> decide
  · have hk4 : k < 4 := by omega
    interval_cases k <;> decide

/-- C5, amended: for paging depth `d` in `{4, 5}`, level `l < d` and an immediate strictly
between base and limit of the family that is not answered earlier in the order of
evaluation (for `l ≥ 1` it lies outside the range of level `l - 1`, which holds the ranges
of all lower levels; for `l = 0` it is neither of the special entries `pmin + 0x7F8` and
`pmin + 0xF68`), the classification is the base accessor `bnames[l + 5 - d]` with offset
`imm - pmin`, and `mm_dyn_reloc_lifter` on a `mov reg, imm` with this immediate appends the
adjusted call of that accessor. -/
theorem mm_dyn_reloc_lifter_base (d l imm : Nat) (hd : d = 4 ∨ d = 5) (hl : l < d)
    (hlo : make_pte_base l d < imm) (hhi : imm < make_pte_base l d + 2 ^ (12 + 9 * l) - 1)
    (hsp : l = 0 → imm ≠ make_pte_base 0 d + 0x7F8 ∧ imm ≠ make_pte_base 0 d + 0xF68)
    (hlower : ∀ k, k + 1 = l →
      imm < make_pte_base k d ∨ make_pte_base k d + 2 ^ (12 + 9 * k) - 1 < imm) :
    classify_immediate imm =
      some { getter := bnames.getD (l + 5 - d) "", rtype := "_MMPTE",
             offset := imm - make_pte_base l d } ∧
    bnames.getD (l + 5 - d) "" ∈ bnames ∧
    (∀ (get_named_type : String → Option tinfo_t) (reg2mreg : Nat → Nat) (cg : codegen_t),
      cg.insn.itype = .NN_mov → cg.insn.ops0.type = .o_reg → cg.insn.ops1.type = .o_imm →
      cg.insn.ops1.value = imm →
      mm_dyn_reloc_lifter get_named_type reg2mreg cg =
        (true, { cg with mb :=
          { insns := cg.mb.insns ++ [reloc_adjust_ins get_named_type reg2mreg cg.insn
              { getter := bnames.getD (l + 5 - d) "", rtype := "_MMPTE",
                offset := imm - make_pte_base l d }],
            predset := cg.mb.predset, lists_dirty := true } })) := by
  obtain ⟨h1, h2, h3, h4, h5, h6, h7, h8, h9⟩ := make_pte_base_values
  have hbase := classify_level_base imm d l hd hl hlo hhi hsp
  have hlow : ∀ k, k < l →
      imm < make_pte_base k d ∨ make_pte_base k d + 2 ^ (12 + 9 * k) - 1 < imm := by
    intro k hk
    induction l with
    | zero => omega
    | succ l ih =>
      clear ih
      have hl1 := hlower l rfl
      clear hbase hsp hlower hlo hhi
      have hn : ∀ j, j ≤ l → j < l + 1 → ∀ i, i + j = l →
          make_pte_base l d ≤ make_pte_base i d ∧
          make_pte_base i d + 2 ^ (12 + 9 * i) - 1 ≤ make_pte_base l d + 2 ^ (12 + 9 * l) - 1 := by
        intro j
        induction j with
        | zero => intro _ _ i hi; simp at hi; subst hi; exact ⟨le_refl _, le_refl _⟩
        | succ j ihj =>
          intro hj1 hj2 i hi
          have hn1 := pte_ranges_nested d i hd (by omega)
          have hn2 := ihj (by omega) (by omega) (i + 1) (by omega)
          exact ⟨le_trans hn2.1 hn1.1, le_trans hn1.2 hn2.2⟩
      have := hn (l - k) (by omega) (by omega) k (by omega)
      omega
  have hcl : classify_immediate imm =
      some { getter := bnames.getD (l + 5 - d) "", rtype := "_MMPTE",
             offset := imm - make_pte_base l d } := by
    refine classify_immediate_eq_level imm d l _ hd hl ?_ ?_ ?_ hbase
    · rw [classify_pfn_list_none_iff]
      simp only [pfn_list_base_va48, pfn_list_base_la57]
      rcases hd with rfl | rfl <;> interval_cases l <;>
        simp only [h1, h2, h3, h4, h5, h6, h7, h8, h9] at hlo hhi <;>
        norm_num at hlo hhi ⊢ <;> omega
    · intro k hk
      rw [classify_level_none_iff imm d k hd (by omega)]
      exact hlow k hk
    · intro h5d k hk
      subst h5d
      rw [classify_level_none_iff imm 4 k (Or.inl rfl) hk]
      interval_cases l <;> interval_cases k <;>
        simp only [h1, h2, h3, h4, h5, h6, h7, h8, h9] at hlo hhi ⊢ <;>
        norm_num at hlo hhi ⊢ <;> omega
  refine ⟨hcl, ?_, ?_⟩
  · rcases hd with rfl | rfl <;> interval_cases l <;> decide
  · intro get_named_type reg2mreg cg e1 e2 e3 e4
    exact mm_dyn_reloc_lifter_of_match get_named_type reg2mreg cg _ ⟨e1, e2, e3⟩
      (by rw [e4]; exact hcl)

/-- Witness for C5, amended: `0xFFFFF6FB7DA00008` lies in the range of level 1 of depth 4
and outside the range of level 0. -/
theorem mm_dyn_reloc_lifter_base_witness :
    classify_immediate 0xFFFFF6FB7DA00008 =
      some { getter := bnames.getD (1 + 5 - 4) "", rtype := "_MMPTE",
             offset := 0xFFFFF6FB7DA00008 - make_pte_base 1 4 } ∧
    bnames.getD (1 + 5 - 4) "" = "MmGetPdpteBase" ∧
    0xFFFFF6FB7DA00008 - make_pte_base 1 4 = 8 :=
  ⟨(mm_dyn_reloc_lifter_base 4 1 0xFFFFF6FB7DA00008 (Or.inl rfl) (by decide) (by decide)
      (by decide) (by decide)
      (by
        intro k hk
        obtain rfl : k = 0 := by omega
        decide)).1,
    by decide, by decide⟩

theorem classify_immediate_none_iff_outside (imm : Nat) :
    classify_immediate imm = none ↔
      ¬ ((pfn_list_base_va48 ≤ imm ∧ imm ≤ pfn_list_base_va48 + 48) ∨
         (pfn_list_base_la57 ≤ imm ∧ imm ≤ pfn_list_base_la57 + 48) ∨
         ∃ d l, (d = 4 ∨ d = 5) ∧ l < d ∧ make_pte_base l d ≤ imm ∧
           imm ≤ make_pte_base l d + 2 ^ (12 + 9 * l) - 1) := by
  rw [classify_immediate_none_iff, classify_pfn_list_none_iff]
  constructor
  · rintro ⟨⟨hp1, hp2⟩, h4, h5⟩ hin
    rcases hin with h | h | ⟨d, l, hd, hl, e1, e2⟩
    · exact hp1 h
    · exact hp2 h
    · rcases hd with rfl | rfl
      · have := (classify_level_none_iff imm 4 l (Or.inl rfl) hl).mp (h4 l hl)
        omega
      · have := (classify_level_none_iff imm 5 l (Or.inr rfl) hl).mp (h5 l hl)
        omega
  · intro hout
    refine ⟨⟨fun h => hout (Or.inl h), fun h => hout (Or.inr (Or.inl h))⟩,
      fun l hl => (classify_level_none_iff imm 4 l (Or.inl rfl) hl).mpr ?_,
      fun l hl => (classify_level_none_iff imm 5 l (Or.inr rfl) hl).mpr ?_⟩
    · by_contra hc
      exact hout (Or.inr (Or.inr ⟨4, l, Or.inl rfl, hl, by omega, by omega⟩))
    · by_contra hc
      exact hout (Or.inr (Or.inr ⟨5, l, Or.inr rfl, hl, by omega, by omega⟩))

/-- C6: `mm_dyn_reloc_lifter` is inert (it returns false and leaves the code generator state,
the block and its dirty flag included, as it was) exactly when the instruction is not a
`mov reg, imm` or its immediate lies outside both PFN windows `[base, base + 48]`
(`base = 0xFFFFFA8000000000`, `0xFFFFDE0000000000`) and outside every page-table range
`[make_pte_base l d, make_pte_base l d + 2 ^ (12 + 9 * l) - 1]` with `d` in `{4, 5}` and
`l < d`; on a `mov reg, imm` whose immediate lies in one of these ranges it returns true. -/
theorem mm_dyn_reloc_lifter_inert_iff (get_named_type : String → Option tinfo_t)
    (reg2mreg : Nat → Nat) (cg : codegen_t) :
    (pfn_list_base_va48 = 0xFFFFFA8000000000 ∧ pfn_list_base_la57 = 0xFFFFDE0000000000) ∧
    (mm_dyn_reloc_lifter get_named_type reg2mreg cg = (false, cg) ↔
      (¬ (cg.insn.itype = .NN_mov ∧ cg.insn.ops0.type = .o_reg ∧
          cg.insn.ops1.type = .o_imm) ∨
       ¬ ((pfn_list_base_va48 ≤ cg.insn.ops1.value ∧
            cg.insn.ops1.value ≤ pfn_list_base_va48 + 48) ∨
          (pfn_list_base_la57 ≤ cg.insn.ops1.value ∧
            cg.insn.ops1.value ≤ pfn_list_base_la57 + 48) ∨
          ∃ d l, (d = 4 ∨ d = 5) ∧ l < d ∧ make_pte_base l d ≤ cg.insn.ops1.value ∧
            cg.insn.ops1.value ≤ make_pte_base l d + 2 ^ (12 + 9 * l) - 1))) ∧
    ((mm_dyn_reloc_lifter get_named_type reg2mreg cg).1 = true ↔
      ((cg.insn.itype = .NN_mov ∧ cg.insn.ops0.type = .o_reg ∧
          cg.insn.ops1.type = .o_imm) ∧
       ((pfn_list_base_va48 ≤ cg.insn.ops1.value ∧
            cg.insn.ops1.value ≤ pfn_list_base_va48 + 48) ∨
          (pfn_list_base_la57 ≤ cg.insn.ops1.value ∧
            cg.insn.ops1.value ≤ pfn_list_base_la57 + 48) ∨
          ∃ d l, (d = 4 ∨ d = 5) ∧ l < d ∧ make_pte_base l d ≤ cg.insn.ops1.value ∧
            cg.insn.ops1.value ≤ make_pte_base l d + 2 ^ (12 + 9 * l) - 1))) := by
  refine ⟨⟨rfl, rfl⟩, ?_, ?_⟩
  · rw [← classify_immediate_none_iff_outside]
    constructor
    · intro h
      by_contra hcon
      rw [not_or, not_not] at hcon
      obtain ⟨hshape, hcl⟩ := hcon
      cases hc : classify_immediate cg.insn.ops1.value with
      | none => exact hcl hc
      | some m =>
        rw [mm_dyn_reloc_lifter_of_match get_named_type reg2mreg cg m hshape hc] at h
        exact absurd (congrArg Prod.fst h) (by simp)
    · exact mm_dyn_reloc_lifter_of_no_match get_named_type reg2mreg cg
  · constructor
    · intro h
      by_contra hcon
      have hin : ¬ (cg.insn.itype = .NN_mov ∧ cg.insn.ops0.type = .o_reg ∧
          cg.insn.ops1.type = .o_imm) ∨ classify_immediate cg.insn.ops1.value = none := by
        rw [classify_immediate_none_iff_outside]
        by_cases hs : cg.insn.itype = .NN_mov ∧ cg.insn.ops0.type = .o_reg ∧
            cg.insn.ops1.type = .o_imm
        · exact Or.inr (fun hr => hcon ⟨hs, hr⟩)
        · exact Or.inl hs
      rw [mm_dyn_reloc_lifter_of_no_match get_named_type reg2mreg cg hin] at h
      cases h
    · rintro ⟨hshape, hr⟩
      cases hc : classify_immediate cg.insn.ops1.value with
      | none => exact absurd hr ((classify_immediate_none_iff_outside _).mp hc)
      | some m => rw [mm_dyn_reloc_lifter_of_match get_named_type reg2mreg cg m hshape hc]

/-! ## The operand traversal -/

theorem visited_before_nil_right (q : List Nat) : visited_before q [] = false := by
  cases q <;> rfl

/-- Outcome of the traversal of an operand without sub-operands. -/
theorem leaf_traversal_outcome (mv : mop_t → Option mop_t) (op : mop_t)
    (hz : op ≠ .mop_z) (hsub : ∀ i, op.sub? i = none)
    (hfa : op.for_all_ops mv = match mv op with
      | some op1 => (1, op1)
      | none => (0, op)) :
    op.traversal_outcome mv := by
  have hat : op.operand_at [] = some op := by
    cases op <;> first | rfl | exact absurd rfl hz
  cases hm : mv op with
  | none =>
    left
    rw [hm] at hfa
    refine ⟨hfa, fun path o ho => ?_⟩
    cases path with
    | nil => rw [hat] at ho; cases ho; exact hm
    | cons i rest =>
      have : op.operand_at (i :: rest) = none := by
        cases op <;> first | rfl | simp [mop_t.operand_at, hsub i]
      rw [this] at ho; cases ho
  | some o1 =>
    right
    rw [hm] at hfa
    refine ⟨[], op, o1, hat, hm, fun q o2 hq => ?_, hfa⟩
    rw [visited_before_nil_right] at hq
    cases hq

theorem mop_d_operand_at_cons (d : minsn_t) (size : Int) (i : Nat) (path : List Nat) :
    (mop_t.mop_d d size).operand_at (i :: path) = d.operand_at (i :: path) := rfl

theorem mop_d_replace_at_cons (d : minsn_t) (size : Int) (i : Nat) (path : List Nat)
    (new : mop_t) :
    (mop_t.mop_d d size).replace_at (i :: path) new =
      .mop_d (d.replace_at (i :: path) new) size := by
  simp only [mop_t.replace_at, minsn_t.replace_at, mop_t.sub?]
  cases d.slot? i <;> rfl

theorem mop_f_operand_at_cons (f : mcallinfo_t) (args : mcallargs_t) (size : Int) (i : Nat)
    (path : List Nat) :
    (mop_t.mop_f f args size).operand_at (i :: path) = args.operand_at (i :: path) := rfl

theorem mop_f_replace_at_cons (f : mcallinfo_t) (args : mcallargs_t) (size : Int) (i : Nat)
    (path : List Nat) (new : mop_t) :
    (mop_t.mop_f f args size).replace_at (i :: path) new =
      .mop_f f (args.replace_at (i :: path) new) size := by
  simp only [mop_t.replace_at, mcallargs_t.replace_at, mop_t.sub?]
  cases args.get? i <;> rfl

/-- Outcome of the traversal of a nested instruction operand from the outcome of the
traversal of the instruction. -/
theorem mop_d_traversal_outcome (mv : mop_t → Option mop_t) (d : minsn_t) (size : Int)
    (hd : d.traversal_outcome mv) : (mop_t.mop_d d size).traversal_outcome mv := by
  have hfa : (mop_t.mop_d d size).for_all_ops mv = match mv (.mop_d d size) with
      | some op1 => (1, op1)
      | none => ((d.for_all_ops mv).1, .mop_d (d.for_all_ops mv).2 size) := by
    rw [mop_t.for_all_ops]
  cases hm : mv (.mop_d d size) with
  | some o1 =>
    right
    rw [hm] at hfa
    refine ⟨[], _, o1, rfl, hm, fun q o2 hq => ?_, hfa⟩
    rw [visited_before_nil_right] at hq
    cases hq
  | none =>
    rw [hm] at hfa
    rcases hd with ⟨h0, hnone⟩ | ⟨path, o, o1, hat, hmo, hfirst, hres⟩
    · left
      refine ⟨by rw [hfa, h0], fun path o ho => ?_⟩
      cases path with
      | nil => cases ho; exact hm
      | cons i rest => exact hnone (i :: rest) o ho
    · right
      cases path with
      | nil => cases d; cases hat
      | cons i rest =>
        refine ⟨i :: rest, o, o1, hat, hmo, fun q o2 hq ho2 => ?_, ?_⟩
        · cases q with
          | nil => cases ho2; exact hm
          | cons j q1 => exact hfirst (j :: q1) o2 hq ho2
        · rw [hfa, hres, mop_d_replace_at_cons]

/-- Outcome of the traversal of a call descriptor operand from the outcome of the traversal
of its arguments. -/
theorem mop_f_traversal_outcome (mv : mop_t → Option mop_t) (f : mcallinfo_t)
    (args : mcallargs_t) (size : Int)
    (hd : args.traversal_outcome mv) : (mop_t.mop_f f args size).traversal_outcome mv := by
  have hfa : (mop_t.mop_f f args size).for_all_ops mv = match mv (.mop_f f args size) with
      | some op1 => (1, op1)
      | none => ((args.for_all_ops mv).1, .mop_f f (args.for_all_ops mv).2 size) := by
    rw [mop_t.for_all_ops]
  cases hm : mv (.mop_f f args size) with
  | some o1 =>
    right
    rw [hm] at hfa
    refine ⟨[], _, o1, rfl, hm, fun q o2 hq => ?_, hfa⟩
    rw [visited_before_nil_right] at hq
    cases hq
  | none =>
    rw [hm] at hfa
    rcases hd with ⟨h0, hnone⟩ | ⟨path, o, o1, hat, hmo, hfirst, hres⟩
    · left
      refine ⟨by rw [hfa, h0], fun path o ho => ?_⟩
      cases path with
      | nil => cases ho; exact hm
      | cons i rest => exact hnone (i :: rest) o ho
    · right
      cases path with
      | nil => cases args <;> cases hat
      | cons i rest =>
        refine ⟨i :: rest, o, o1, hat, hmo, fun q o2 hq ho2 => ?_, ?_⟩
        · cases q with
          | nil => cases ho2; exact hm
          | cons j q1 => exact hfirst (j :: q1) o2 hq ho2
        · rw [hfa, hres, mop_f_replace_at_cons]

theorem visited_before_cons (i j : Nat) (p q : List Nat) :
    visited_before (i :: p) (j :: q) = true ↔ i < j ∨ (i = j ∧ visited_before p q = true) := by
  simp [visited_before]

/-- Outcome of the traversal of an instruction from the outcomes of the traversals of its
three operands. -/
theorem minsn_traversal_outcome (mv : mop_t → Option mop_t) (opcode : mcode_t)
    (l r d : mop_t) (ea : Nat) (hl : l.traversal_outcome mv) (hr : r.traversal_outcome mv)
    (hd : d.traversal_outcome mv) : (minsn_t.mk opcode l r d ea).traversal_outcome mv := by
  have hfa := minsn_t.for_all_ops.eq_1 mv opcode l r d ea
  rcases hl with ⟨hl0, hln⟩ | ⟨p, o, o1, hat, hmo, hfirst, hres⟩
  · rcases hr with ⟨hr0, hrn⟩ | ⟨p, o, o1, hat, hmo, hfirst, hres⟩
    · rcases hd with ⟨hd0, hdn⟩ | ⟨p, o, o1, hat, hmo, hfirst, hres⟩
      · left
        refine ⟨by rw [hfa, hl0, hr0, hd0]; simp, fun path o ho => ?_⟩
        rcases path with _ | ⟨j, q⟩
        · cases ho
        · rcases j with _ | _ | _ | j
          · exact hln q o ho
          · exact hrn q o ho
          · exact hdn q o ho
          · cases ho
      · right
        refine ⟨2 :: p, o, o1, hat, hmo, fun q o2 hq ho2 => ?_, ?_⟩
        · rcases q with _ | ⟨j, q⟩
          · cases ho2
          · rw [visited_before_cons] at hq
            rcases j with _ | _ | _ | j
            · exact hln q o2 ho2
            · exact hrn q o2 ho2
            · rcases hq with hq | ⟨_, hq⟩
              · omega
              · exact hfirst q o2 hq ho2
            · cases ho2
        · rw [hfa, hl0, hr0, hres]; simp; rfl
    · right
      refine ⟨1 :: p, o, o1, hat, hmo, fun q o2 hq ho2 => ?_, ?_⟩
      · rcases q with _ | ⟨j, q⟩
        · cases ho2
        · rw [visited_before_cons] at hq
          rcases j with _ | _ | j
          · exact hln q o2 ho2
          · rcases hq with hq | ⟨_, hq⟩
            · omega
            · exact hfirst q o2 hq ho2
          · omega
      · rw [hfa, hl0, hres]; simp; rfl
  · right
    refine ⟨0 :: p, o, o1, hat, hmo, fun q o2 hq ho2 => ?_, ?_⟩
    · rcases q with _ | ⟨j, q⟩
      · cases ho2
      · rw [visited_before_cons] at hq
        rcases j with _ | j
        · rcases hq with hq | ⟨_, hq⟩
          · omega
          · exact hfirst q o2 hq ho2
        · omega
    · rw [hfa, hres]; simp; rfl

/-- Outcome of the traversal of an argument list from the outcomes of the traversals of its
first argument and of the remaining ones. -/
theorem mcallargs_cons_traversal_outcome (mv : mop_t → Option mop_t) (arg : mop_t)
    (rest : mcallargs_t) (ha : arg.traversal_outcome mv) (hrest : rest.traversal_outcome mv) :
    (mcallargs_t.cons arg rest).traversal_outcome mv := by
  have hfa := mcallargs_t.for_all_ops.eq_2 mv arg rest
  rcases ha with ⟨ha0, han⟩ | ⟨p, o, o1, hat, hmo, hfirst, hres⟩
  · rcases hrest with ⟨hr0, hrn⟩ | ⟨p, o, o1, hat, hmo, hfirst, hres⟩
    · left
      refine ⟨by rw [hfa, ha0, hr0]; simp, fun path o ho => ?_⟩
      rcases path with _ | ⟨j, q⟩
      · cases ho
      · rcases j with _ | j
        · exact han q o ho
        · exact hrn (j :: q) o ho
    · right
      rcases p with _ | ⟨i, p⟩
      · cases hat
      · refine ⟨(i + 1) :: p, o, o1, hat, hmo, fun q o2 hq ho2 => ?_, ?_⟩
        · rcases q with _ | ⟨j, q⟩
          · cases ho2
          · rw [visited_before_cons] at hq
            rcases j with _ | j
            · exact han q o2 ho2
            · refine hfirst (j :: q) o2 ?_ ho2
              rw [visited_before_cons]
              rcases hq with hq | ⟨hq1, hq2⟩
              · exact Or.inl (by omega)
              · exact Or.inr ⟨by omega, hq2⟩
        · rw [hfa, ha0, hres]
          simp only [ne_eq, not_true_eq_false, if_false]
          simp only [mcallargs_t.replace_at, mcallargs_t.get?, mcallargs_t.set]
          cases rest.get? i <;> rfl
  · right
    refine ⟨0 :: p, o, o1, hat, hmo, fun q o2 hq ho2 => ?_, ?_⟩
    · rcases q with _ | ⟨j, q⟩
      · cases ho2
      · rw [visited_before_cons] at hq
        rcases j with _ | j
        · rcases hq with hq | ⟨_, hq⟩
          · omega
          · exact hfirst q o2 hq ho2
        · omega
    · rw [hfa, hres]; simp; rfl

mutual
/-- The traversal of an operand stops at the first operand the visitor rewrites and changes
nothing else. -/
theorem mop_for_all_ops_outcome (mv : mop_t → Option mop_t) :
    ∀ op : mop_t, op.traversal_outcome mv
  | .mop_z => Or.inl ⟨rfl, fun _ _ ho => by simp [mop_t.operand_at] at ho⟩
  | .mop_r r size =>
    leaf_traversal_outcome mv _ (by simp) (fun _ => rfl) (by rw [mop_t.for_all_ops])
  | .mop_n value size =>
    leaf_traversal_outcome mv _ (by simp) (fun _ => rfl) (by rw [mop_t.for_all_ops])
  | .mop_v g size =>
    leaf_traversal_outcome mv _ (by simp) (fun _ => rfl) (by rw [mop_t.for_all_ops])
  | .mop_b b =>
    leaf_traversal_outcome mv _ (by simp) (fun _ => rfl) (by rw [mop_t.for_all_ops])
  | .mop_h helper =>
    leaf_traversal_outcome mv _ (by simp) (fun _ => rfl) (by rw [mop_t.for_all_ops])
  | .mop_d d size => mop_d_traversal_outcome mv d size (minsn_for_all_ops_outcome mv d)
  | .mop_f f args size =>
    mop_f_traversal_outcome mv f args size (mcallargs_for_all_ops_outcome mv args)
/-- The traversal of an instruction stops at the first operand the visitor rewrites and
changes nothing else. -/
theorem minsn_for_all_ops_outcome (mv : mop_t → Option mop_t) :
    ∀ ins : minsn_t, ins.traversal_outcome mv
  | .mk opcode l r d ea =>
    minsn_traversal_outcome mv opcode l r d ea (mop_for_all_ops_outcome mv l)
      (mop_for_all_ops_outcome mv r) (mop_for_all_ops_outcome mv d)
/-- The traversal of an argument list stops at the first operand the visitor rewrites and
changes nothing else. -/
theorem mcallargs_for_all_ops_outcome (mv : mop_t → Option mop_t) :
    ∀ args : mcallargs_t, args.traversal_outcome mv
  | .nil => Or.inl ⟨rfl, fun path _ ho => by cases path <;> cases ho⟩
  | .cons arg rest =>
    mcallargs_cons_traversal_outcome mv arg rest (mop_for_all_ops_outcome mv arg)
      (mcallargs_for_all_ops_outcome mv rest)
end

/-! ## The constant-folding optimizers -/

theorem global_optimizer_visitor_eq_none_iff (get_name : Nat → String)
    (union_bits : mop_t → Nat) (op : mop_t) :
    global_optimizer_visitor get_name union_bits op = none ↔
      ∀ delta, delta ≤ 8 →
        get_name ((op.g union_bits + 2 ^ 64 - delta) % 2 ^ 64) ∉ force_zero_list := by
  unfold global_optimizer_visitor
  split_ifs with h
  · simp only [reduceCtorEq, false_iff, not_forall]
    simp only [List.any_eq_true, List.mem_range, beq_iff_eq] at h
    obtain ⟨delta, hd, item, hi, he⟩ := h
    exact ⟨delta, by omega, by rw [he]; simpa using hi⟩
  · simp only [true_iff]
    intro delta hd hmem
    apply h
    simp only [List.any_eq_true, List.mem_range, beq_iff_eq]
    exact ⟨delta, by omega, _, hmem, rfl⟩

theorem shadow_pte_update_visitor_eq_some (get_name : Nat → String)
    (union_bits : mop_t → Nat) (op o1 : mop_t)
    (h : shadow_pte_update_visitor get_name union_bits op = some o1) :
    o1 = .mop_n 0 4 ∧ ∃ d size, op = .mop_d d size ∧ d.opcode = .m_call ∧
      (get_name (d.l.g union_bits) = "MiPteHasShadow" ∨
        get_name (d.l.g union_bits) = "MiPteInShadowRange") := by
  unfold shadow_pte_update_visitor at h
  split at h
  · rename_i d size
    by_cases h1 : d.opcode = .m_call
    · by_cases h2 : (get_name (d.l.g union_bits) == "MiPteHasShadow" ||
          get_name (d.l.g union_bits) == "MiPteInShadowRange") = true
      · simp only [h1, h2, if_true] at h
        cases h
        refine ⟨rfl, d, size, rfl, h1, ?_⟩
        simpa using h2
      · simp only [h1, h2, if_true] at h
        cases h
    · simp only [h1, if_false] at h
      cases h
  · cases h

theorem global_optimizer_of_unchanged (get_name : Nat → String) (union_bits : mop_t → Nat)
    (blk : mblock_t) (ins : minsn_t)
    (h : is_mcode_jcond ins.opcode = true →
      ins.for_all_ops (global_optimizer_visitor get_name union_bits) = (0, ins)) :
    global_optimizer get_name union_bits blk ins = (0, blk, ins) := by
  unfold global_optimizer
  cases hj : is_mcode_jcond ins.opcode with
  | false => rfl
  | true => simp [h hj]

theorem shadow_pte_update_optimizer_of_unchanged (get_name : Nat → String)
    (union_bits : mop_t → Nat) (blk : mblock_t) (ins : minsn_t)
    (h : is_mcode_jcond ins.opcode = true →
      ins.for_all_ops (shadow_pte_update_visitor get_name union_bits) = (0, ins)) :
    shadow_pte_update_optimizer get_name union_bits blk ins = (0, blk, ins) := by
  unfold shadow_pte_update_optimizer
  cases hj : is_mcode_jcond ins.opcode with
  | false => rfl
  | true => simp [h hj]

theorem constant_folding_optimizers_inert_aux (get_name : Nat → String)
    (union_bits : mop_t → Nat) (blk : mblock_t) (ins : minsn_t)
    (hno : ∀ path o, ins.operand_at path = some o → ∀ delta, delta ≤ 8 →
        get_name ((o.g union_bits + 2 ^ 64 - delta) % 2 ^ 64) ∉ force_zero_list) :
    global_optimizer get_name union_bits blk ins = (0, blk, ins) := by
  apply global_optimizer_of_unchanged
  intro _
  rcases minsn_for_all_ops_outcome (global_optimizer_visitor get_name union_bits) ins with
    ⟨h0, _⟩ | ⟨path, o, o1, hat, hmo, _, _⟩
  · exact h0
  · have := (global_optimizer_visitor_eq_none_iff get_name union_bits o).mpr (hno path o hat)
    rw [this] at hmo
    cases hmo

/-- Both optimizers return 0 and leave instruction and block as they were on an instruction
that is not a conditional jump; `global_optimizer` does so when the lookup of its visitor
(the name at `op->g - delta`, `delta` in `0..8`, read on every operand whatever its kind)
finds no listed name, and `shadow_pte_update_optimizer` when the lookup of its visitor (the
name at `op->d->l.g`, read whatever the kind of `l`) finds none of its two names on a nested
call. -/
theorem constant_folding_optimizers_inert (get_name : Nat → String) (union_bits : mop_t → Nat)
    (blk : mblock_t) (ins : minsn_t) :
    (is_mcode_jcond ins.opcode = false →
      global_optimizer get_name union_bits blk ins = (0, blk, ins) ∧
      shadow_pte_update_optimizer get_name union_bits blk ins = (0, blk, ins)) ∧
    ((∀ path o, ins.operand_at path = some o → ∀ delta, delta ≤ 8 →
        get_name ((o.g union_bits + 2 ^ 64 - delta) % 2 ^ 64) ∉ force_zero_list) →
      global_optimizer get_name union_bits blk ins = (0, blk, ins)) ∧
    ((∀ path d size, ins.operand_at path = some (.mop_d d size) → d.opcode = .m_call →
        get_name (d.l.g union_bits) ≠ "MiPteHasShadow" ∧
        get_name (d.l.g union_bits) ≠ "MiPteInShadowRange") →
      shadow_pte_update_optimizer get_name union_bits blk ins = (0, blk, ins)) := by
  refine ⟨fun hj => ⟨?_, ?_⟩, fun hno => ?_, fun hno => ?_⟩
  · exact global_optimizer_of_unchanged _ _ _ _ (fun h => by rw [hj] at h; cases h)
  · exact shadow_pte_update_optimizer_of_unchanged _ _ _ _ (fun h => by rw [hj] at h; cases h)
  · exact constant_folding_optimizers_inert_aux get_name union_bits blk ins hno
  · apply shadow_pte_update_optimizer_of_unchanged
    intro _
    rcases minsn_for_all_ops_outcome (shadow_pte_update_visitor get_name union_bits) ins with
      ⟨h0, _⟩ | ⟨path, o, o1, hat, hmo, _, _⟩
    · exact h0
    · obtain ⟨_, d, size, rfl, hcall, hname⟩ :=
        shadow_pte_update_visitor_eq_some get_name union_bits o o1 hmo
      have := hno path d size hat hcall
      rcases hname with hname | hname
      · exact absurd hname this.1
      · exact absurd hname this.2

theorem make_nop_predset (blk : mblock_t) (i : Nat) :
    (blk.make_nop i).predset = blk.predset := by
  unfold mblock_t.make_nop
  cases blk.insns[i]? <;> rfl

theorem make_nop_length (blk : mblock_t) (i : Nat) :
    (blk.make_nop i).insns.length = blk.insns.length := by
  unfold mblock_t.make_nop
  cases blk.insns[i]? <;> simp

theorem make_nop_getElem? (blk : mblock_t) (i j : Nat) :
    (blk.make_nop i).insns[j]? =
      if j = i then (blk.insns[j]?).map minsn_t._make_nop else blk.insns[j]? := by
  unfold mblock_t.make_nop
  cases hi : blk.insns[i]? with
  | none =>
    by_cases hji : j = i
    · subst hji; simp [hi]
    · simp [hji]
  | some ins =>
    have hlt : i < blk.insns.length := (List.getElem?_eq_some.mp hi).1
    by_cases hji : j = i
    · subst hji
      simp [hi, List.getElem?_set_self hlt]
    · simp [hji, List.getElem?_set_ne (Ne.symm hji)]

theorem clear_predecessor_fold (pred : mblock_t) (n : Nat) :
    ((List.range n).foldl
        (fun blk j => if j + 1 ≠ pred.insns.length then blk.make_nop j else blk)
        pred).predset = pred.predset ∧
    ((List.range n).foldl
        (fun blk j => if j + 1 ≠ pred.insns.length then blk.make_nop j else blk)
        pred).insns.length = pred.insns.length ∧
    ∀ j, ((List.range n).foldl
        (fun blk j => if j + 1 ≠ pred.insns.length then blk.make_nop j else blk)
        pred).insns[j]? =
      (pred.insns[j]?).map
        (fun ins => if j < n ∧ j + 1 ≠ pred.insns.length then ins._make_nop else ins) := by
  induction n with
  | zero => simp
  | succ n ih =>
    obtain ⟨ih1, ih2, ih3⟩ := ih
    rw [List.range_succ, List.foldl_append]
    simp only [List.foldl_cons, List.foldl_nil]
    by_cases hn : n + 1 ≠ pred.insns.length
    · rw [if_pos hn]
      refine ⟨by rw [make_nop_predset, ih1], by rw [make_nop_length, ih2], fun j => ?_⟩
      rw [make_nop_getElem?, ih3]
      by_cases hj : j = n
      · subst hj
        cases pred.insns[j]? with
        | none => simp
        | some ins => simp [hn, minsn_t._make_nop, minsn_t.ea]
      · rw [if_neg hj]
        cases pred.insns[j]? with
        | none => simp
        | some ins =>
          simp only [Option.map_some', Option.some.injEq]
          by_cases hjn : j < n
          · by_cases hjl : j + 1 ≠ pred.insns.length
            · rw [if_pos ⟨hjn, hjl⟩, if_pos ⟨by omega, hjl⟩]
            · rw [if_neg (fun h => hjl h.2), if_neg (fun h => hjl h.2)]
          · rw [if_neg (fun h => hjn h.1), if_neg (fun h => by omega)]
    · rw [if_neg hn]
      refine ⟨ih1, ih2, fun j => ?_⟩
      rw [ih3]
      cases pred.insns[j]? with
      | none => simp
      | some ins =>
        simp only [Option.map_some', Option.some.injEq]
        by_cases hjn : j < n
        · by_cases hjl : j + 1 ≠ pred.insns.length
          · rw [if_pos ⟨hjn, hjl⟩, if_pos ⟨by omega, hjl⟩]
          · rw [if_neg (fun h => hjl h.2), if_neg (fun h => hjl h.2)]
        · rw [if_neg (fun h => hjn h.1), if_neg]
          intro h
          have : j = n := by omega
          subst this
          exact hn h.2

/-- The effect of the predecessor loop on one block: all instructions but the last become
no-ops, the last one and the predecessor set stay. -/
theorem clear_predecessor_spec (pred : mblock_t) :
    (clear_predecessor pred).predset = pred.predset ∧
    (clear_predecessor pred).insns.length = pred.insns.length ∧
    ∀ j, (clear_predecessor pred).insns[j]? =
      (pred.insns[j]?).map
        (fun ins => if j + 1 < pred.insns.length then ins._make_nop else ins) := by
  obtain ⟨h1, h2, h3⟩ := clear_predecessor_fold pred pred.insns.length
  refine ⟨h1, h2, fun j => ?_⟩
  have := h3 j
  unfold clear_predecessor
  rw [this]
  cases hj : pred.insns[j]? with
  | none => rfl
  | some ins =>
    have hlt : j < pred.insns.length := (List.getElem?_eq_some.mp hj).1
    simp only [Option.map_some', Option.some.injEq]
    by_cases hl : j + 1 < pred.insns.length
    · rw [if_pos hl, if_pos ⟨hlt, by omega⟩]
    · rw [if_neg hl, if_neg (fun h => by omega)]

theorem update_block_length (mba : List mblock_t) (n : Nat) (f : mblock_t → mblock_t) :
    (update_block mba n f).length = mba.length := by
  unfold update_block
  cases mba[n]? <;> simp

theorem update_block_getElem? (mba : List mblock_t) (n m : Nat) (f : mblock_t → mblock_t) :
    (update_block mba n f)[m]? = if m = n then (mba[n]?).map f else mba[m]? := by
  unfold update_block
  cases hn : mba[n]? with
  | none =>
    by_cases hmn : m = n
    · subst hmn; simp [hn]
    · simp [hmn]
  | some blk =>
    have hlt : n < mba.length := (List.getElem?_eq_some.mp hn).1
    by_cases hmn : m = n
    · subst hmn
      simp [List.getElem?_set_self hlt]
    · simp [hmn, List.getElem?_set_ne (Ne.symm hmn)]

theorem cleared_from_clear_predecessor (orig cur : mblock_t)
    (h : cur = orig ∨ mblock_t.cleared_from orig cur) :
    mblock_t.cleared_from orig (clear_predecessor cur) := by
  obtain ⟨c1, c2, c3⟩ := clear_predecessor_spec cur
  rcases h with rfl | ⟨h1, h2, h3⟩
  · exact ⟨c1, c2, c3⟩
  · refine ⟨by rw [c1, h1], by rw [c2, h2], fun j => ?_⟩
    rw [c3, h3, h2]
    cases orig.insns[j]? with
    | none => rfl
    | some ins =>
      simp only [Option.map_some', Option.some.injEq]
      by_cases hl : j + 1 < orig.insns.length
      · simp only [hl, if_true]
        rfl
      · simp only [hl, if_false]

/-- Invariant of the loop over the predecessors: the blocks met so far are cleared, the
others are as at the start. -/
theorem clear_predecessors_fold (mba0 : List mblock_t) :
    ∀ (ps : List Nat) (m : List mblock_t) (S : Nat → Prop),
      (∀ n, (S n → ∀ blk, mba0[n]? = some blk →
          ∃ cur, m[n]? = some cur ∧ mblock_t.cleared_from blk cur) ∧
        (¬ S n → m[n]? = mba0[n]?)) →
      ∀ n, ((S n ∨ n ∈ ps) → ∀ blk, mba0[n]? = some blk →
          ∃ cur, (ps.foldl (fun m p => update_block m p clear_predecessor) m)[n]? = some cur ∧
            mblock_t.cleared_from blk cur) ∧
        (¬ (S n ∨ n ∈ ps) →
          (ps.foldl (fun m p => update_block m p clear_predecessor) m)[n]? = mba0[n]?) := by
  intro ps
  induction ps with
  | nil =>
    intro m S hinv n
    refine ⟨fun h => (hinv n).1 (by simpa using h), fun h => (hinv n).2 (by simpa using h)⟩
  | cons p ps ih =>
    intro m S hinv n
    have hstep : ∀ n, ((S n ∨ n = p) → ∀ blk, mba0[n]? = some blk →
          ∃ cur, (update_block m p clear_predecessor)[n]? = some cur ∧
            mblock_t.cleared_from blk cur) ∧
        (¬ (S n ∨ n = p) → (update_block m p clear_predecessor)[n]? = mba0[n]?) := by
      intro n
      rw [update_block_getElem?]
      by_cases hnp : n = p
      · subst hnp
        refine ⟨fun _ blk hblk => ?_, fun h => absurd (Or.inr rfl) h⟩
        rw [if_pos rfl]
        by_cases hS : S n
        · obtain ⟨cur, hcur, hcl⟩ := (hinv n).1 hS blk hblk
          exact ⟨clear_predecessor cur, by rw [hcur]; rfl,
            cleared_from_clear_predecessor blk cur (Or.inr hcl)⟩
        · have := (hinv n).2 hS
          rw [hblk] at this
          exact ⟨clear_predecessor blk, by rw [this]; rfl,
            cleared_from_clear_predecessor blk blk (Or.inl rfl)⟩
      · rw [if_neg hnp]
        refine ⟨fun h => (hinv n).1 (h.resolve_right hnp), fun h => (hinv n).2 (fun hs => h (Or.inl hs))⟩
    have := ih (update_block m p clear_predecessor) (fun n => S n ∨ n = p) hstep n
    simp only [List.foldl_cons, List.mem_cons]
    refine ⟨fun h => this.1 ?_, fun h => this.2 ?_⟩
    · rcases h with h | h | h
      · exact Or.inl (Or.inl h)
      · exact Or.inl (Or.inr h)
      · exact Or.inr h
    · intro hc
      apply h
      rcases hc with (hc | hc) | hc
      · exact Or.inl hc
      · exact Or.inr (Or.inl hc)
      · exact Or.inr (Or.inr hc)

theorem clear_predecessors_length (mba : List mblock_t) (b : Nat) :
    (clear_predecessors mba b).length = mba.length := by
  unfold clear_predecessors
  cases mba[b]? with
  | none => rfl
  | some blk =>
    simp only
    generalize blk.predset = ps
    induction ps generalizing mba with
    | nil => rfl
    | cons p ps ih => simp only [List.foldl_cons]; rw [ih, update_block_length]

/-- The effect of the loop of lines 116-119: the predecessors of block `b` are cleared, all
other blocks are untouched. -/
theorem clear_predecessors_spec (mba : List mblock_t) (b : Nat) (blk : mblock_t)
    (hb : mba[b]? = some blk) (n : Nat) :
    (n ∈ blk.predset → ∀ pred, mba[n]? = some pred →
      ∃ cur, (clear_predecessors mba b)[n]? = some cur ∧ mblock_t.cleared_from pred cur) ∧
    (n ∉ blk.predset → (clear_predecessors mba b)[n]? = mba[n]?) := by
  have := clear_predecessors_fold mba blk.predset mba (fun _ => False)
    (fun n => ⟨fun h => absurd h id, fun _ => rfl⟩) n
  unfold clear_predecessors
  rw [hb]
  simp only [false_or] at this
  exact this

theorem is_scheduler_hint_make_nop (get_name : Nat → String) (union_bits : mop_t → Nat)
    (ins : minsn_t) : is_scheduler_hint get_name union_bits ins._make_nop = false := by
  simp [is_scheduler_hint, minsn_t._make_nop, minsn_t.opcode]

theorem foldl_fixed {α β : Type} (f : α → β → α) (st : α) :
    ∀ l : List β, (∀ x ∈ l, f st x = st) → l.foldl f st = st := by
  intro l
  induction l with
  | nil => intro _; rfl
  | cons x l ih =>
    intro h
    rw [List.foldl_cons, h x (List.mem_cons_self _ _)]
    exact ih (fun y hy => h y (List.mem_cons_of_mem _ hy))

theorem scheduler_hint_step_skip (get_name : Nat → String) (union_bits : mop_t → Nat)
    (b : Nat) (m : List mblock_t) (c : Int) (j : Nat)
    (h : ∀ blk ins, m[b]? = some blk → blk.insns[j]? = some ins →
      is_scheduler_hint get_name union_bits ins = false) :
    scheduler_hint_step get_name union_bits b (m, c) j = (m, c) := by
  unfold scheduler_hint_step
  cases hb : m[b]? with
  | none => rfl
  | some blk =>
    simp only
    cases hj : blk.insns[j]? with
    | none => rfl
    | some ins => simp [h blk ins hb hj]

/-- The run of `scheduler_hint_optimizer` on a block with one matching call at position `i`:
the call is made a no-op, the predecessors are cleared once, the count is 1. -/
theorem scheduler_hint_optimizer_single (get_name : Nat → String) (union_bits : mop_t → Nat)
    (mba : List mblock_t) (b i : Nat) (blk : mblock_t) (call : minsn_t)
    (hb : mba[b]? = some blk) (hi : blk.insns[i]? = some call)
    (hmatch : is_scheduler_hint get_name union_bits call = true)
    (huniq : ∀ j ins, j ≠ i → blk.insns[j]? = some ins →
      is_scheduler_hint get_name union_bits ins = false) :
    scheduler_hint_optimizer get_name union_bits mba b =
      (clear_predecessors (update_block mba b (fun blk => blk.make_nop i)) b, 1) := by
  have hilt : i < blk.insns.length := (List.getElem?_eq_some.mp hi).1
  have hb1 : (update_block mba b (fun blk => blk.make_nop i))[b]? = some (blk.make_nop i) := by
    rw [update_block_getElem?, if_pos rfl, hb]; rfl
  unfold scheduler_hint_optimizer
  rw [hb]
  simp only
  have hlen : blk.insns.length = (i + 1) + (blk.insns.length - (i + 1)) := by omega
  rw [hlen, List.range_add, List.range_succ, List.foldl_append, List.foldl_append]
  rw [foldl_fixed _ _ (List.range i) (fun j hj => by
    apply scheduler_hint_step_skip
    intro blk0 ins h1 h2
    rw [hb] at h1
    cases h1
    exact huniq j ins (by have := List.mem_range.mp hj; omega) h2)]
  have hstep : scheduler_hint_step get_name union_bits b (mba, 0) i =
      (clear_predecessors (update_block mba b (fun blk => blk.make_nop i)) b, 1) := by
    unfold scheduler_hint_step
    simp only [hb, hi, hmatch, if_true]
    rfl
  simp only [List.foldl_cons, List.foldl_nil]
  rw [hstep]
  apply foldl_fixed
  intro j _
  apply scheduler_hint_step_skip
  intro blk2 ins2 h1 h2
  have hspec := clear_predecessors_spec _ b (blk.make_nop i) hb1 b
  have hsrc : ∀ ins1, (blk.make_nop i).insns[j]? = some ins1 →
      is_scheduler_hint get_name union_bits ins1 = false := by
    intro ins1 h
    rw [make_nop_getElem?] at h
    by_cases hji : j = i
    · rw [if_pos hji] at h
      cases h0 : blk.insns[j]? with
      | none => rw [h0] at h; cases h
      | some ins0 =>
        rw [h0] at h
        cases h
        exact is_scheduler_hint_make_nop _ _ _
    · rw [if_neg hji] at h
      exact huniq j ins1 hji h
  by_cases hself : b ∈ (blk.make_nop i).predset
  · obtain ⟨cur, hcur, _, _, hc3⟩ := hspec.1 hself _ hb1
    rw [hcur] at h1
    cases h1
    rw [hc3] at h2
    cases h0 : (blk.make_nop i).insns[j]? with
    | none => rw [h0] at h2; cases h2
    | some ins1 =>
      rw [h0] at h2
      simp only [Option.map_some', Option.some.injEq] at h2
      subst h2
      split_ifs
      · exact is_scheduler_hint_make_nop _ _ _
      · exact hsrc ins1 h0
  · rw [hspec.2 hself, hb1] at h1
    cases h1
    exact hsrc ins2 h2

/-- C7 as stated fails on a block that is its own predecessor: in the one-block loop
`mov; call KiRemoveSystemWorkPriorityKick; goto 0` the only match is the call, and the pass
also turns the `mov` of the block into a no-op. -/
theorem scheduler_hint_optimizer_counterexample :
    ([minsn_t.mk .m_mov (.mop_n 1 4) .mop_z (.mop_r 8 4) 0x140002000,
      minsn_t.mk .m_call (.mop_v 0x140005000 8) .mop_z
        (.mop_f (helper_call_info .BT_VOID) .nil 0) 0x140002004,
      minsn_t.mk .m_goto (.mop_b 0) .mop_z .mop_z 0x140002009].map
        (is_scheduler_hint
          (fun a => if a = 0x140005000 then "KiRemoveSystemWorkPriorityKick" else "")
          (fun _ => 0)) = [false, true, false]) ∧
    ((scheduler_hint_optimizer
        (fun a => if a = 0x140005000 then "KiRemoveSystemWorkPriorityKick" else "")
        (fun _ => 0)
        [{ insns := [.mk .m_mov (.mop_n 1 4) .mop_z (.mop_r 8 4) 0x140002000,
                     .mk .m_call (.mop_v 0x140005000 8) .mop_z
                       (.mop_f (helper_call_info .BT_VOID) .nil 0) 0x140002004,
                     .mk .m_goto (.mop_b 0) .mop_z .mop_z 0x140002009],
           predset := [0], lists_dirty := false }] 0).1.map
      (fun blk => blk.insns.map minsn_t.opcode) = [[.m_nop, .m_nop, .m_goto]]) ∧
    ((scheduler_hint_optimizer
        (fun a => if a = 0x140005000 then "KiRemoveSystemWorkPriorityKick" else "")
        (fun _ => 0)
        [{ insns := [.mk .m_mov (.mop_n 1 4) .mop_z (.mop_r 8 4) 0x140002000,
                     .mk .m_call (.mop_v 0x140005000 8) .mop_z
                       (.mop_f (helper_call_info .BT_VOID) .nil 0) 0x140002004,
                     .mk .m_goto (.mop_b 0) .mop_z .mop_z 0x140002009],
           predset := [0], lists_dirty := false }] 0).1.map
      (fun blk => (blk.insns[0]?).map minsn_t.opcode) ≠
     [{ insns := [minsn_t.mk .m_mov (.mop_n 1 4) .mop_z (.mop_r 8 4) 0x140002000,
                  .mk .m_call (.mop_v 0x140005000 8) .mop_z
                    (.mop_f (helper_call_info .BT_VOID) .nil 0) 0x140002004,
                  .mk .m_goto (.mop_b 0) .mop_z .mop_z 0x140002009],
        predset := [0], lists_dirty := false }].map
      (fun blk : mblock_t => (blk.insns[0]?).map minsn_t.opcode)) := by
  decide

/-- C7, amended: for a block `b` whose only match is one call to
`KiRemoveSystemWorkPriorityKick`, at position `i`, after `scheduler_hint_optimizer`: that call
is a no-op; in every predecessor of `b` every instruction but the last is a no-op (the
instruction made by `_make_nop`: opcode `m_nop`, no operands, same address) and the last
instruction is unchanged, unless it is the matched call itself (the predecessor is `b` and the
call ends `b`); when `b` is not its own predecessor all other instructions of `b` are
unchanged; every block that is neither `b` nor a predecessor of `b` is unchanged; the number
of blocks is unchanged. -/
theorem scheduler_hint_optimizer_single_call (get_name : Nat → String)
    (union_bits : mop_t → Nat) (mba : List mblock_t) (b i : Nat) (blk : mblock_t)
    (call : minsn_t) (hb : mba[b]? = some blk) (hi : blk.insns[i]? = some call)
    (hmatch : is_scheduler_hint get_name union_bits call = true)
    (huniq : ∀ j ins, j ≠ i → blk.insns[j]? = some ins →
      is_scheduler_hint get_name union_bits ins = false) :
    (∃ blk2, (scheduler_hint_optimizer get_name union_bits mba b).1[b]? = some blk2 ∧
      blk2.insns[i]? = some (.mk .m_nop .mop_z .mop_z .mop_z call.ea) ∧
      blk2.insns.length = blk.insns.length ∧
      (b ∉ blk.predset → ∀ j, j ≠ i → blk2.insns[j]? = blk.insns[j]?)) ∧
    (∀ p, p ∈ blk.predset → ∀ pred, mba[p]? = some pred →
      ∃ pred2, (scheduler_hint_optimizer get_name union_bits mba b).1[p]? = some pred2 ∧
        pred2.insns.length = pred.insns.length ∧
        (∀ j ins, pred.insns[j]? = some ins → j + 1 < pred.insns.length →
          pred2.insns[j]? = some (.mk .m_nop .mop_z .mop_z .mop_z ins.ea)) ∧
        (∀ j ins, pred.insns[j]? = some ins → j + 1 = pred.insns.length →
          (p ≠ b ∨ j ≠ i) → pred2.insns[j]? = some ins)) ∧
    (∀ c, c ≠ b → c ∉ blk.predset →
      (scheduler_hint_optimizer get_name union_bits mba b).1[c]? = mba[c]?) ∧
    (scheduler_hint_optimizer get_name union_bits mba b).1.length = mba.length := by
  rw [scheduler_hint_optimizer_single get_name union_bits mba b i blk call hb hi hmatch huniq]
  simp only
  have hb1 : (update_block mba b (fun blk => blk.make_nop i))[b]? = some (blk.make_nop i) := by
    rw [update_block_getElem?, if_pos rfl, hb]; rfl
  have hother : ∀ c, c ≠ b → (update_block mba b (fun blk => blk.make_nop i))[c]? = mba[c]? := by
    intro c hc
    rw [update_block_getElem?, if_neg hc]
  have hps : (blk.make_nop i).predset = blk.predset := make_nop_predset blk i
  have hspec := clear_predecessors_spec _ b (blk.make_nop i) hb1
  rw [hps] at hspec
  have hnop_i : (blk.make_nop i).insns[i]? = some call._make_nop := by
    rw [make_nop_getElem?, if_pos rfl, hi]; rfl
  have hilt : i < blk.insns.length := (List.getElem?_eq_some.mp hi).1
  refine ⟨?_, ?_, ?_, ?_⟩
  · by_cases hself : b ∈ blk.predset
    · obtain ⟨cur, hcur, _, hc2, hc3⟩ := (hspec b).1 hself _ hb1
      refine ⟨cur, hcur, ?_, by rw [hc2, make_nop_length], fun h => absurd hself h⟩
      rw [hc3, hnop_i]
      simp only [Option.map_some', Option.some.injEq]
      split_ifs <;> rfl
    · refine ⟨blk.make_nop i, by rw [(hspec b).2 hself, hb1], hnop_i, make_nop_length blk i,
        fun _ j hj => ?_⟩
      rw [make_nop_getElem?, if_neg hj]
  · intro p hp pred hpred
    by_cases hpb : p = b
    · subst hpb
      rw [hb] at hpred
      cases hpred
      obtain ⟨cur, hcur, _, hc2, hc3⟩ := (hspec p).1 hp _ hb1
      refine ⟨cur, hcur, by rw [hc2, make_nop_length], fun j ins hj hl => ?_,
        fun j ins hj hl hne => ?_⟩
      · rw [hc3, make_nop_getElem?, make_nop_length, hj]
        by_cases hji : j = i
        · simp only [if_pos hji, Option.map_some', if_pos hl]; rfl
        · simp only [if_neg hji, Option.map_some', if_pos hl]; rfl
      · have hji : j ≠ i := by
          rcases hne with h | h
          · exact absurd rfl h
          · exact h
        rw [hc3, make_nop_getElem?, make_nop_length, if_neg hji, hj]
        simp only [Option.map_some', if_neg (by omega : ¬ j + 1 < blk.insns.length)]
    · have hpred1 := hother p hpb
      rw [hpred] at hpred1
      obtain ⟨cur, hcur, _, hc2, hc3⟩ := (hspec p).1 hp _ hpred1
      refine ⟨cur, hcur, hc2, fun j ins hj hl => ?_, fun j ins hj hl _ => ?_⟩
      · rw [hc3, hj]
        simp only [Option.map_some', if_pos hl]; rfl
      · rw [hc3, hj]
        simp only [Option.map_some', if_neg (by omega : ¬ j + 1 < pred.insns.length)]
  · intro c hcb hcp
    rw [(hspec c).2 hcp, hother c hcb]
  · rw [clear_predecessors_length, update_block_length]

/-- Witness for C7, amended: block 0 is the call alone, its predecessor block 1 is
`mov; mov; goto 0`. -/
theorem scheduler_hint_optimizer_single_call_witness :
    ∃ pred2, (scheduler_hint_optimizer
        (fun a => if a = 0x140005000 then "KiRemoveSystemWorkPriorityKick" else "")
        (fun _ => 0)
        [{ insns := [.mk .m_call (.mop_v 0x140005000 8) .mop_z
                       (.mop_f (helper_call_info .BT_VOID) .nil 0) 0x140002004],
           predset := [1], lists_dirty := false },
         { insns := [.mk .m_mov (.mop_n 1 4) .mop_z (.mop_r 8 4) 0x140001000,
                     .mk .m_mov (.mop_n 2 4) .mop_z (.mop_r 9 4) 0x140001004,
                     .mk .m_goto (.mop_b 0) .mop_z .mop_z 0x140001008],
           predset := [], lists_dirty := false }] 0).1[1]? = some pred2 ∧
      pred2.insns.length = 3 ∧
      (∀ j ins, [minsn_t.mk .m_mov (.mop_n 1 4) .mop_z (.mop_r 8 4) 0x140001000,
                 .mk .m_mov (.mop_n 2 4) .mop_z (.mop_r 9 4) 0x140001004,
                 .mk .m_goto (.mop_b 0) .mop_z .mop_z 0x140001008][j]? = some ins →
        j + 1 < 3 → pred2.insns[j]? = some (.mk .m_nop .mop_z .mop_z .mop_z ins.ea)) ∧
      (∀ j ins, [minsn_t.mk .m_mov (.mop_n 1 4) .mop_z (.mop_r 8 4) 0x140001000,
                 .mk .m_mov (.mop_n 2 4) .mop_z (.mop_r 9 4) 0x140001004,
                 .mk .m_goto (.mop_b 0) .mop_z .mop_z 0x140001008][j]? = some ins →
        j + 1 = 3 → (1 ≠ 0 ∨ j ≠ 0) → pred2.insns[j]? = some ins) :=
  (scheduler_hint_optimizer_single_call
    (fun a => if a = 0x140005000 then "KiRemoveSystemWorkPriorityKick" else "")
    (fun _ => 0)
        [{ insns := [.mk .m_call (.mop_v 0x140005000 8) .mop_z
                       (.mop_f (helper_call_info .BT_VOID) .nil 0) 0x140002004],
           predset := [1], lists_dirty := false },
         { insns := [.mk .m_mov (.mop_n 1 4) .mop_z (.mop_r 8 4) 0x140001000,
                     .mk .m_mov (.mop_n 2 4) .mop_z (.mop_r 9 4) 0x140001004,
                     .mk .m_goto (.mop_b 0) .mop_z .mop_z 0x140001008],
           predset := [], lists_dirty := false }] 0 0
        { insns := [.mk .m_call (.mop_v 0x140005000 8) .mop_z
                       (.mop_f (helper_call_info .BT_VOID) .nil 0) 0x140002004],
           predset := [1], lists_dirty := false }
        (.mk .m_call (.mop_v 0x140005000 8) .mop_z
                       (.mop_f (helper_call_info .BT_VOID) .nil 0) 0x140002004) rfl rfl (by decide)
    (by
      intro j ins hj h
      cases j with
      | zero => exact absurd rfl hj
      | succ j => cases h)).2.1 1 (by decide) _ rfl

/-- C8 as stated fails: on the call alone with predecessor `mov; mov; goto 0` the pass
clears two predecessor instructions and returns 1, not `1 + 2`. -/
theorem scheduler_hint_optimizer_count_counterexample :
    ([minsn_t.mk .m_call (.mop_v 0x140005000 8) .mop_z
        (.mop_f (helper_call_info .BT_VOID) .nil 0) 0x140002004].map
        (is_scheduler_hint
          (fun a => if a = 0x140005000 then "KiRemoveSystemWorkPriorityKick" else "")
          (fun _ => 0)) = [true]) ∧
    ((scheduler_hint_optimizer
        (fun a => if a = 0x140005000 then "KiRemoveSystemWorkPriorityKick" else "")
        (fun _ => 0)
        [{ insns := [.mk .m_call (.mop_v 0x140005000 8) .mop_z
                       (.mop_f (helper_call_info .BT_VOID) .nil 0) 0x140002004],
           predset := [1], lists_dirty := false },
         { insns := [.mk .m_mov (.mop_n 1 4) .mop_z (.mop_r 8 4) 0x140001000,
                     .mk .m_mov (.mop_n 2 4) .mop_z (.mop_r 9 4) 0x140001004,
                     .mk .m_goto (.mop_b 0) .mop_z .mop_z 0x140001008],
           predset := [], lists_dirty := false }] 0).1.map
      (fun blk => blk.insns.map minsn_t.opcode) = [[.m_nop], [.m_nop, .m_nop, .m_goto]]) ∧
    (predecessor_instructions_cleared
        [{ insns := [.mk .m_call (.mop_v 0x140005000 8) .mop_z
                       (.mop_f (helper_call_info .BT_VOID) .nil 0) 0x140002004],
           predset := [1], lists_dirty := false },
         { insns := [.mk .m_mov (.mop_n 1 4) .mop_z (.mop_r 8 4) 0x140001000,
                     .mk .m_mov (.mop_n 2 4) .mop_z (.mop_r 9 4) 0x140001004,
                     .mk .m_goto (.mop_b 0) .mop_z .mop_z 0x140001008],
           predset := [], lists_dirty := false }] 0 = 2) ∧
    ((scheduler_hint_optimizer
        (fun a => if a = 0x140005000 then "KiRemoveSystemWorkPriorityKick" else "")
        (fun _ => 0)
        [{ insns := [.mk .m_call (.mop_v 0x140005000 8) .mop_z
                       (.mop_f (helper_call_info .BT_VOID) .nil 0) 0x140002004],
           predset := [1], lists_dirty := false },
         { insns := [.mk .m_mov (.mop_n 1 4) .mop_z (.mop_r 8 4) 0x140001000,
                     .mk .m_mov (.mop_n 2 4) .mop_z (.mop_r 9 4) 0x140001004,
                     .mk .m_goto (.mop_b 0) .mop_z .mop_z 0x140001008],
           predset := [], lists_dirty := false }] 0).2 = 1) ∧
    ((scheduler_hint_optimizer
        (fun a => if a = 0x140005000 then "KiRemoveSystemWorkPriorityKick" else "")
        (fun _ => 0)
        [{ insns := [.mk .m_call (.mop_v 0x140005000 8) .mop_z
                       (.mop_f (helper_call_info .BT_VOID) .nil 0) 0x140002004],
           predset := [1], lists_dirty := false },
         { insns := [.mk .m_mov (.mop_n 1 4) .mop_z (.mop_r 8 4) 0x140001000,
                     .mk .m_mov (.mop_n 2 4) .mop_z (.mop_r 9 4) 0x140001004,
                     .mk .m_goto (.mop_b 0) .mop_z .mop_z 0x140001008],
           predset := [], lists_dirty := false }] 0).2 ≠
      1 + (predecessor_instructions_cleared
        [{ insns := [.mk .m_call (.mop_v 0x140005000 8) .mop_z
                       (.mop_f (helper_call_info .BT_VOID) .nil 0) 0x140002004],
           predset := [1], lists_dirty := false },
         { insns := [.mk .m_mov (.mop_n 1 4) .mop_z (.mop_r 8 4) 0x140001000,
                     .mk .m_mov (.mop_n 2 4) .mop_z (.mop_r 9 4) 0x140001004,
                     .mk .m_goto (.mop_b 0) .mop_z .mop_z 0x140001008],
           predset := [], lists_dirty := false }] 0 : Nat)) := by
  decide

/-! ## The image patcher on every image -/

/-- Searching from `lo` finds what searching from the start finds when nothing matches
below `lo`. -/
theorem bin_search2_from (img pat : List Nat) (lo : Nat)
    (hno : ∀ q, q < lo → match_at img q pat = false) :
    bin_search2 img lo img.length pat = bin_search2 img 0 img.length pat := by
  unfold bin_search2
  cases h0 : scan_forward img pat (img.length - 0) 0 with
  | none =>
    rw [scan_forward_none] at h0 ⊢
    intro q _ h2
    exact h0 q (Nat.zero_le _) (by omega)
  | some p =>
    obtain ⟨_, hp2, hp3, hp4⟩ := scan_forward_some img pat _ 0 p h0
    have hlop : lo ≤ p := by
      by_contra hc
      rw [hno p (by omega)] at hp3
      cases hp3
    cases h1 : scan_forward img pat (img.length - lo) lo with
    | none =>
      rw [scan_forward_none] at h1
      rw [h1 p hlop (by omega)] at hp3
      cases hp3
    | some q =>
      obtain ⟨hq1, hq2, hq3, hq4⟩ := scan_forward_some img pat _ lo q h1
      have h1 : ¬ p < q := fun h => by
        rw [hq4 p hlop h] at hp3
        cases hp3
      have h2 : ¬ q < p := fun h => by
        rw [hp4 q (Nat.zero_le _) h] at hq3
        cases hq3
      congr 1
      omega

/-- After the first match `p` has been overwritten nothing matches below `p + 14`. -/
theorem no_match_below_after_patch (img : List Nat) (p : Nat)
    (hs : bin_search2 img 0 img.length rsb_pattern = some p) :
    ∀ q, q < p + 14 → match_at (put_bytes img p rsb_replace_with) q rsb_pattern = false := by
  obtain ⟨_, _, hpm, hpfirst⟩ := scan_forward_some img rsb_pattern _ 0 p hs
  intro q hq
  by_contra hc
  have hc2 : match_at (put_bytes img p rsb_replace_with) q rsb_pattern = true := by
    simpa using hc
  have hdis := match_after_patch img p q hpm hc2
  rw [match_at_put_bytes_disjoint img rsb_pattern rsb_replace_with p q hdis] at hc2
  rw [hpfirst q (by omega) (by omega)] at hc2
  cases hc2

/-- The loop of `remove_rsb_flush`, which searches from the start of the image every time,
and the forward scan, which resumes after the last overwrite, compute the same image. -/
theorem remove_rsb_flush_loop_eq_forward_scan (fuel : Nat) :
    ∀ (img log : List Nat) (lo : Nat),
      (∀ q, q < lo → match_at img q rsb_pattern = false) →
      (remove_rsb_flush_loop fuel img log).map Prod.fst =
        single_forward_scan_loop fuel img lo := by
  induction fuel with
  | zero => intro img log lo _; rfl
  | succ fuel ih =>
    intro img log lo hno
    simp only [remove_rsb_flush_loop, single_forward_scan_loop]
    rw [bin_search2_from img rsb_pattern lo hno]
    cases hs : bin_search2 img 0 img.length rsb_pattern with
    | none => rfl
    | some p =>
      simp only
      exact ih _ _ (p + 14) (no_match_below_after_patch img p hs)

/-- C13: on every image `remove_rsb_flush`, which restarts its search at the start of the
image after each overwrite, ends and returns exactly the image the single forward scan of
the specification returns (the scan that resumes at `p + 14` after an overwrite at `p`);
and every overwrite made after an overwrite at `p` is at `p + 14` or later. -/
theorem remove_rsb_flush_refines_forward_scan (img : List Nat) :
    ∃ out ps, remove_rsb_flush_run img = some (out, ps) ∧
      remove_rsb_flush img = some out ∧
      single_forward_scan img = some out ∧
      List.Pairwise (fun p q => p + 14 ≤ q) ps := by
  obtain ⟨final, ps, hrun, _, _, _, _, hpw⟩ := remove_rsb_flush_run_spec img
  have heq := remove_rsb_flush_loop_eq_forward_scan (img.length + 1) img [] 0
    (fun q hq => by omega)
  have hrf : remove_rsb_flush img = some final := by simp [remove_rsb_flush, hrun]
  refine ⟨final, ps, hrun, hrf, ?_, hpw⟩
  unfold single_forward_scan
  rw [← heq]
  exact hrf

theorem countP_range_lt (P Q : Nat → Bool) (n p : Nat)
    (hsub : ∀ i, Q i = true → P i = true) (hp : p < n) (hP : P p = true)
    (hQ : Q p = false) :
    (List.range n).countP Q < (List.range n).countP P := by
  induction n with
  | zero => omega
  | succ n ih =>
    rw [List.range_succ, List.countP_append, List.countP_append, List.countP_singleton,
      List.countP_singleton]
    have hmono : (List.range n).countP Q ≤ (List.range n).countP P :=
      List.countP_mono_left (fun x _ hx => hsub x hx)
    by_cases hpn : p = n
    · subst hpn
      simp only [hP, hQ, if_true]
      simp only [Bool.false_eq_true, if_false]
      omega
    · have hlt := ih (by omega)
      by_cases hq : Q n = true
      · rw [if_pos hq, if_pos (hsub n hq)]
        omega
      · rw [if_neg hq]
        split_ifs <;> omega

/-- Overwriting a match creates no occurrence: what matches afterwards matched before and
does not meet the overwritten window. -/
theorem no_new_occurrence (img : List Nat) (p q : Nat)
    (hp : match_at img p rsb_pattern = true)
    (hq : match_at (put_bytes img p rsb_replace_with) q rsb_pattern = true) :
    match_at img q rsb_pattern = true ∧ (q + 14 ≤ p ∨ p + 14 ≤ q) := by
  have hdis := match_after_patch img p q hp hq
  rw [match_at_put_bytes_disjoint img rsb_pattern rsb_replace_with p q hdis] at hq
  exact ⟨hq, hdis⟩

/-- Overwriting a match leaves strictly fewer occurrences. -/
theorem rsb_occurrences_decrease (img : List Nat) (p : Nat)
    (hp : match_at img p rsb_pattern = true) :
    rsb_occurrences (put_bytes img p rsb_replace_with) < rsb_occurrences img := by
  have hb : p + 14 ≤ img.length := match_at_bound img rsb_pattern p (by decide) hp
  unfold rsb_occurrences
  rw [put_bytes_length]
  refine countP_range_lt _ _ img.length p (fun q hq => (no_new_occurrence img p q hp hq).1)
    (by omega) hp ?_
  by_contra hc
  have hc2 : match_at (put_bytes img p rsb_replace_with) p rsb_pattern = true := by
    simpa using hc
  have := (no_new_occurrence img p p hp hc2).2
  omega

/-- C14: on every image the loop of `remove_rsb_flush` ends, and it overwrites at most as many
windows as the input has occurrences of `rsb_pattern`: overwriting a match creates no
occurrence (what matches afterwards matched before and lies outside the overwritten window),
so every overwrite leaves strictly fewer occurrences. -/
theorem remove_rsb_flush_terminates (img : List Nat) :
    (∃ out ps, remove_rsb_flush_run img = some (out, ps) ∧
      ps.length ≤ rsb_occurrences img) ∧
    (∀ p q, match_at img p rsb_pattern = true →
      match_at (put_bytes img p rsb_replace_with) q rsb_pattern = true →
      match_at img q rsb_pattern = true ∧ (q + 14 ≤ p ∨ p + 14 ≤ q)) ∧
    (∀ p, match_at img p rsb_pattern = true →
      rsb_occurrences (put_bytes img p rsb_replace_with) < rsb_occurrences img) := by
  refine ⟨?_, no_new_occurrence img, rsb_occurrences_decrease img⟩
  obtain ⟨final, ps, hrun, _, _, hps, _, hpw⟩ := remove_rsb_flush_run_spec img
  refine ⟨final, ps, hrun, ?_⟩
  have hnd : ps.Nodup := hpw.imp (fun h => by omega)
  have hsub : ps ⊆ (List.range img.length).filter (fun q => match_at img q rsb_pattern) := by
    intro p hp
    have hm := (hps p hp).1
    have hb : p + 14 ≤ img.length := match_at_bound img rsb_pattern p (by decide) hm
    exact List.mem_filter.mpr ⟨List.mem_range.mpr (by omega), hm⟩
  have := (List.subperm_of_subset hnd hsub).length_le
  rw [rsb_occurrences, List.countP_eq_length_filter]
  exact this

/-- C15: on every image the result of `remove_rsb_flush` has the length of the input and
differs from it only at positions inside a 14-byte window that starts at an occurrence of
`rsb_pattern` in the input; every overwritten window holds all 14 bytes of
`rsb_replace_with`; an image without an occurrence is returned as it is. -/
theorem remove_rsb_flush_frame (img : List Nat) :
    ∃ out ps, remove_rsb_flush_run img = some (out, ps) ∧
      remove_rsb_flush img = some out ∧
      out.length = img.length ∧
      (∀ j, out[j]? ≠ img[j]? →
        ∃ p, match_at img p rsb_pattern = true ∧ p ≤ j ∧ j < p + 14) ∧
      (∀ p ∈ ps, match_at img p rsb_pattern = true ∧
        get_bytes out 14 p = rsb_replace_with) ∧
      ((∀ q, match_at img q rsb_pattern = false) → out = img ∧ ps = []) := by
  obtain ⟨final, ps, hrun, hlen, hframe, hps, _, _⟩ := remove_rsb_flush_run_spec img
  refine ⟨final, ps, hrun, by simp [remove_rsb_flush, hrun], hlen, ?_, ?_, ?_⟩
  · intro j hj
    by_contra hcon
    apply hj
    apply hframe
    intro p hp
    by_contra hc
    exact hcon ⟨p, (hps p hp).1, by omega, by omega⟩
  · intro p hp
    exact ⟨(hps p hp).1,
      get_bytes_of_match_at final rsb_replace_with p 0 14 (hps p hp).2 (by decide)⟩
  · intro hno
    have hnil : ps = [] := by
      cases ps with
      | nil => rfl
      | cons b t =>
        have := (hps b (List.mem_cons_self _ _)).1
        rw [hno b] at this
        cases this
    refine ⟨?_, hnil⟩
    apply List.ext_getElem?
    intro j
    exact hframe j (by rw [hnil]; intro b hb; cases hb)

/-! ## The operand kinds seen by the constant-folding optimizers -/

/-- C11 fails on the code: the visitor of `global_optimizer` reads `op->g` without testing
`op->t`.  In `jnz #5.4, r8.4, @7` there is no global reference; the payload of the immediate
operand (the pointer to its number record) read as an address is `0x140001000`, where the
database has the name `KiIrqlFlags`.  The optimizer returns 1, marks the block dirty and
replaces the immediate 5 by 0. -/
theorem global_optimizer_ignores_operand_kind :
    global_optimizer (fun a => if a = 0x140001000 then "KiIrqlFlags" else "")
      (fun op => match op with
        | .mop_n _ _ => 0x140001000
        | _ => 0)
      { insns := [], predset := [], lists_dirty := false }
      (.mk .m_jnz (.mop_n 5 4) (.mop_r 8 4) (.mop_b 7) 0x140002000) =
    (1, { insns := [], predset := [], lists_dirty := true },
      .mk .m_jnz (.mop_n 0 4) (.mop_r 8 4) (.mop_b 7) 0x140002000) := by
  rfl

/-- C16 as stated fails: on `mov rax, 0xFFFFFA8000000010` and an empty block the lifter
matches and leaves a block of one instruction, the addition; the helper call is not an
instruction of the block but the nested instruction in the right operand of the addition. -/
theorem mm_dyn_reloc_lifter_appends_counterexample :
    (mm_dyn_reloc_lifter (fun _ => none) (fun r => r)
      { insn := { itype := .NN_mov, ea := 0x140002000, ops0 := ⟨.o_reg, 0, 0⟩,
                  ops1 := ⟨.o_imm, 0, 0xFFFFFA8000000010⟩ },
        mb := { insns := [], predset := [], lists_dirty := false } }).1 = true ∧
    (mm_dyn_reloc_lifter (fun _ => none) (fun r => r)
      { insn := { itype := .NN_mov, ea := 0x140002000, ops0 := ⟨.o_reg, 0, 0⟩,
                  ops1 := ⟨.o_imm, 0, 0xFFFFFA8000000010⟩ },
        mb := { insns := [], predset := [], lists_dirty := false } }).2.mb.insns.map
      minsn_t.opcode = [.m_add] ∧
    (mm_dyn_reloc_lifter (fun _ => none) (fun r => r)
      { insn := { itype := .NN_mov, ea := 0x140002000, ops0 := ⟨.o_reg, 0, 0⟩,
                  ops1 := ⟨.o_imm, 0, 0xFFFFFA8000000010⟩ },
        mb := { insns := [], predset := [], lists_dirty := false } }).2.mb.insns.length ≠
      0 + 2 := by
  decide

/-- C16, amended: whenever `mm_dyn_reloc_lifter` matches it appends exactly one instruction
at the end of the block: the addition of the offset and of the result of the helper call,
which is the nested instruction in its right operand, stored into the register of the
destination operand.  The instructions already in the block stay as they are and in order,
the block is marked dirty, and nothing else of the code generator state changes. -/
theorem mm_dyn_reloc_lifter_appends (get_named_type : String → Option tinfo_t)
    (reg2mreg : Nat → Nat) (cg : codegen_t)
    (h : (mm_dyn_reloc_lifter get_named_type reg2mreg cg).1 = true) :
    ∃ m, classify_immediate cg.insn.ops1.value = some m ∧
      (mm_dyn_reloc_lifter get_named_type reg2mreg cg).2.mb.insns =
        cg.mb.insns ++
          [.mk .m_add
            (.mop_n m.offset (intrinsic_return_type get_named_type m.rtype).get_size)
            (.mop_d
              (.mk .m_call (.mop_h m.getter) .mop_z
                (.mop_f (helper_call_info (intrinsic_return_type get_named_type m.rtype))
                  .nil (intrinsic_return_type get_named_type m.rtype).get_size)
                cg.insn.ea)
              (intrinsic_return_type get_named_type m.rtype).get_size)
            (.mop_r (reg2mreg cg.insn.ops0.reg)
              (intrinsic_return_type get_named_type m.rtype).get_size)
            cg.insn.ea] ∧
      (mm_dyn_reloc_lifter get_named_type reg2mreg cg).2.mb.insns.length =
        cg.mb.insns.length + 1 ∧
      (∀ j, j < cg.mb.insns.length →
        (mm_dyn_reloc_lifter get_named_type reg2mreg cg).2.mb.insns[j]? = cg.mb.insns[j]?) ∧
      (mm_dyn_reloc_lifter get_named_type reg2mreg cg).2.mb.lists_dirty = true ∧
      (mm_dyn_reloc_lifter get_named_type reg2mreg cg).2.mb.predset = cg.mb.predset ∧
      (mm_dyn_reloc_lifter get_named_type reg2mreg cg).2.insn = cg.insn := by
  by_cases hshape : cg.insn.itype = .NN_mov ∧ cg.insn.ops0.type = .o_reg ∧
      cg.insn.ops1.type = .o_imm
  · cases hc : classify_immediate cg.insn.ops1.value with
    | none =>
      rw [mm_dyn_reloc_lifter_of_no_match get_named_type reg2mreg cg (Or.inr hc)] at h
      cases h
    | some m =>
      rw [mm_dyn_reloc_lifter_of_match get_named_type reg2mreg cg m hshape hc]
      refine ⟨m, rfl, rfl, by simp, fun j hj => ?_, rfl, rfl, rfl⟩
      simp only
      rw [List.getElem?_append_left hj]
  · rw [mm_dyn_reloc_lifter_of_no_match get_named_type reg2mreg cg (Or.inl hshape)] at h
    cases h

/-- Witness for C16, amended: `mov rax, 0xFFFFFA8000000010` into a block of one instruction. -/
theorem mm_dyn_reloc_lifter_appends_witness :
    ∃ m, classify_immediate 0xFFFFFA8000000010 = some m ∧
      (mm_dyn_reloc_lifter (fun _ => none) (fun r => r)
        { insn := { itype := .NN_mov, ea := 0x140002000, ops0 := ⟨.o_reg, 0, 0⟩,
                    ops1 := ⟨.o_imm, 0, 0xFFFFFA8000000010⟩ },
          mb := { insns := [.mk .m_nop .mop_z .mop_z .mop_z 0x140001FFF], predset := [],
                  lists_dirty := false } }).2.mb.insns.length = 1 + 1 := by
  obtain ⟨m, hm, _, hlen, _⟩ := mm_dyn_reloc_lifter_appends (fun _ => none) (fun r => r)
    { insn := { itype := .NN_mov, ea := 0x140002000, ops0 := ⟨.o_reg, 0, 0⟩,
                ops1 := ⟨.o_imm, 0, 0xFFFFFA8000000010⟩ },
      mb := { insns := [.mk .m_nop .mop_z .mop_z .mop_z 0x140001FFF], predset := [],
              lists_dirty := false } } (by decide)
  exact ⟨m, hm, hlen⟩

/-! ## The families of the semantic accessor lifter -/

theorem classify_immediate_of_pfn (imm : Nat) (m : intrinsic_t)
    (h : classify_pfn_list imm [pfn_list_base_va48, pfn_list_base_la57] = some m) :
    classify_immediate imm = some m := by
  simp only [classify_immediate, h]

/-- C17: for each PFN base (`0xFFFFFA8000000000`, `0xFFFFDE0000000000`) and every immediate
in `[base, base + 48]` the PFN list answers with the accessor `MmGetPfnDb`, the record type
`_MMPFN` and the offset `imm - base`, a value in `0..48`; the answer of the PFN list is the
classification, the page tables are not asked, and `mm_dyn_reloc_lifter` on a `mov reg, imm`
appends the adjusted call of `MmGetPfnDb`.  For `base - 1` and `base + 49` the PFN list
does not match (and nothing else does). -/
theorem mm_dyn_reloc_lifter_pfn (base imm : Nat)
    (hb : base = pfn_list_base_va48 ∨ base = pfn_list_base_la57)
    (hlo : base ≤ imm) (hhi : imm ≤ base + 48) :
    (pfn_list_base_va48 = 0xFFFFFA8000000000 ∧ pfn_list_base_la57 = 0xFFFFDE0000000000) ∧
    classify_pfn_list imm [pfn_list_base_va48, pfn_list_base_la57] =
      some { getter := "MmGetPfnDb", rtype := "_MMPFN", offset := imm - base } ∧
    classify_immediate imm =
      some { getter := "MmGetPfnDb", rtype := "_MMPFN", offset := imm - base } ∧
    imm - base ≤ 48 ∧
    classify_pfn_list (base - 1) [pfn_list_base_va48, pfn_list_base_la57] = none ∧
    classify_pfn_list (base + 49) [pfn_list_base_va48, pfn_list_base_la57] = none ∧
    classify_immediate (base - 1) = none ∧ classify_immediate (base + 49) = none ∧
    (∀ (get_named_type : String → Option tinfo_t) (reg2mreg : Nat → Nat) (cg : codegen_t),
      cg.insn.itype = .NN_mov → cg.insn.ops0.type = .o_reg → cg.insn.ops1.type = .o_imm →
      cg.insn.ops1.value = imm →
      mm_dyn_reloc_lifter get_named_type reg2mreg cg =
        (true, { cg with mb :=
          { insns := cg.mb.insns ++ [reloc_adjust_ins get_named_type reg2mreg cg.insn
              { getter := "MmGetPfnDb", rtype := "_MMPFN", offset := imm - base }],
            predset := cg.mb.predset, lists_dirty := true } })) := by
  have hpfn : classify_pfn_list imm [pfn_list_base_va48, pfn_list_base_la57] =
      some { getter := "MmGetPfnDb", rtype := "_MMPFN", offset := imm - base } := by
    rcases hb with rfl | rfl
    · simp only [classify_pfn_list, pfn_list_base_va48] at hlo hhi ⊢
      rw [if_pos ⟨hlo, by omega⟩]
    · simp only [classify_pfn_list, pfn_list_base_va48, pfn_list_base_la57] at hlo hhi ⊢
      rw [if_neg (by omega), if_pos ⟨hlo, by omega⟩]
  have hcl := classify_immediate_of_pfn imm _ hpfn
  refine ⟨⟨rfl, rfl⟩, hpfn, hcl, by omega, ?_, ?_, ?_, ?_, ?_⟩
  · rcases hb with rfl | rfl <;> decide
  · rcases hb with rfl | rfl <;> decide
  · rcases hb with rfl | rfl <;> decide
  · rcases hb with rfl | rfl <;> decide
  · intro get_named_type reg2mreg cg e1 e2 e3 e4
    exact mm_dyn_reloc_lifter_of_match get_named_type reg2mreg cg _ ⟨e1, e2, e3⟩
      (by rw [e4]; exact hcl)

/-- Witness for C17: the last slot of the 57-bit window. -/
theorem mm_dyn_reloc_lifter_pfn_witness :
    classify_immediate 0xFFFFDE0000000030 =
      some { getter := "MmGetPfnDb", rtype := "_MMPFN",
             offset := 0xFFFFDE0000000030 - pfn_list_base_la57 } ∧
    0xFFFFDE0000000030 - pfn_list_base_la57 = 48 :=
  ⟨(mm_dyn_reloc_lifter_pfn pfn_list_base_la57 0xFFFFDE0000000030 (Or.inr rfl) (by decide)
      (by decide)).2.2.1, by decide⟩

/-- Inside the range of level 0, its limit and its two special entries apart, level 0
reports its base accessor. -/
theorem classify_level_zero_base (imm d : Nat) (hd : d = 4 ∨ d = 5)
    (hlo : make_pte_base 0 d ≤ imm) (hhi : imm ≤ make_pte_base 0 d + 0xFFE)
    (h1 : imm ≠ make_pte_base 0 d + 0x7F8) (h2 : imm ≠ make_pte_base 0 d + 0xF68) :
    classify_level imm d 0 =
      some { getter := bnames.getD (5 - d) "", rtype := "_MMPTE",
             offset := imm - make_pte_base 0 d } := by
  obtain ⟨e1, _, _, _, e5, _, _, _, _⟩ := make_pte_base_values
  rcases hd with rfl | rfl <;>
    simp only [e1, e5] at hlo hhi h1 h2 <;>
    simp only [classify_level, e1, e5, Nat.shiftLeft_eq] <;>
    norm_num [index_self_ref, lnames, bnames] at hlo hhi h1 h2 ⊢ <;>
    split_ifs <;> first | omega | simp

/-- C18: for paging depth `d` in `{4, 5}` and `pmin0 = make_pte_base 0 d`, the immediate
`pmin0 + 0x7F8` is classified as `MmGetPxeUserLimit` with offset 0, the immediate
`pmin0 + 8 * 0x1ED = pmin0 + 0xF68` (`0xFFFFF6FB7DBEDF68` for `d = 4`) as `MmGetPxeSelfRef`
with offset 0, and every other immediate in `[pmin0, pmin0 + 0xFFE]` as the base accessor of
level 0 (`bnames[5 - d]`) with offset `imm - pmin0`; the two special addresses are not
reported as a base hit. -/
theorem mm_dyn_reloc_lifter_level_zero (d : Nat) (hd : d = 4 ∨ d = 5) :
    classify_immediate (make_pte_base 0 d + 0x7F8) =
      some { getter := "MmGetPxeUserLimit", rtype := "_MMPTE", offset := 0 } ∧
    classify_immediate (make_pte_base 0 d + 8 * 0x1ED) =
      some { getter := "MmGetPxeSelfRef", rtype := "_MMPTE", offset := 0 } ∧
    make_pte_base 0 d + 8 * 0x1ED = make_pte_base 0 d + 0xF68 ∧
    (d = 4 → make_pte_base 0 d + 8 * 0x1ED = 0xFFFFF6FB7DBEDF68) ∧
    bnames.getD (5 - d) "" ∈ bnames ∧
    "MmGetPxeUserLimit" ≠ bnames.getD (5 - d) "" ∧
    "MmGetPxeSelfRef" ≠ bnames.getD (5 - d) "" ∧
    (∀ imm, make_pte_base 0 d ≤ imm → imm ≤ make_pte_base 0 d + 0xFFE →
      imm ≠ make_pte_base 0 d + 0x7F8 → imm ≠ make_pte_base 0 d + 0xF68 →
      classify_immediate imm =
        some { getter := bnames.getD (5 - d) "", rtype := "_MMPTE",
               offset := imm - make_pte_base 0 d }) := by
  refine ⟨?_, ?_, rfl, ?_, ?_, ?_, ?_, ?_⟩
  · rcases hd with rfl | rfl <;> decide
  · rcases hd with rfl | rfl <;> decide
  · rcases hd with rfl | rfl <;> decide
  · rcases hd with rfl | rfl <;> decide
  · rcases hd with rfl | rfl <;> decide
  · rcases hd with rfl | rfl <;> decide
  · intro imm hlo hhi h1 h2
    obtain ⟨e1, e2, e3, e4, e5, _, _, _, _⟩ := make_pte_base_values
    have hbase := classify_level_zero_base imm d hd hlo hhi h1 h2
    refine classify_immediate_eq_level imm d 0 _ hd (by rcases hd with rfl | rfl <;> omega)
      ?_ (fun k hk => by omega) ?_ hbase
    · rw [classify_pfn_list_none_iff]
      simp only [pfn_list_base_va48, pfn_list_base_la57]
      rcases hd with rfl | rfl <;> simp only [e1, e5] at hlo hhi <;> omega
    · intro h5d k hk
      subst h5d
      rw [classify_level_none_iff imm 4 k (Or.inl rfl) hk]
      simp only [e5] at hlo hhi
      interval_cases k <;> simp only [e1, e2, e3, e4] <;> norm_num <;> omega

/-- Witness for C18: depth 4. -/
theorem mm_dyn_reloc_lifter_level_zero_witness :
    classify_immediate (make_pte_base 0 4 + 0x7F8) =
      some { getter := "MmGetPxeUserLimit", rtype := "_MMPTE", offset := 0 } ∧
    classify_immediate (make_pte_base 0 4 + 8 * 0x1ED) =
      some { getter := "MmGetPxeSelfRef", rtype := "_MMPTE", offset := 0 } :=
  ⟨(mm_dyn_reloc_lifter_level_zero 4 (Or.inl rfl)).1,
   (mm_dyn_reloc_lifter_level_zero 4 (Or.inl rfl)).2.1⟩

theorem classify_levels_some (imm d : Nat) (m : intrinsic_t) :
    ∀ (n l0 : Nat), classify_levels imm d n l0 = some m →
      ∃ k, l0 ≤ k ∧ k < l0 + n ∧ classify_level imm d k = some m ∧
        ∀ j, l0 ≤ j → j < k → classify_level imm d j = none := by
  intro n
  induction n with
  | zero => intro l0 h; cases h
  | succ n ih =>
    intro l0 h
    simp only [classify_levels] at h
    cases hc : classify_level imm d l0 with
    | some m1 =>
      rw [hc] at h
      cases h
      exact ⟨l0, le_refl _, by omega, hc, fun j h1 h2 => by omega⟩
    | none =>
      rw [hc] at h
      obtain ⟨k, h1, h2, h3, h4⟩ := ih (l0 + 1) h
      refine ⟨k, by omega, by omega, h3, fun j hj1 hj2 => ?_⟩
      by_cases hj : j = l0
      · subst hj; exact hc
      · exact h4 j (by omega) hj2

/-- The offset a level reports is 0 or the distance from its base. -/
theorem classify_level_offset (imm d l : Nat) (m : intrinsic_t)
    (h : classify_level imm d l = some m) :
    m.offset = 0 ∨ m.offset = imm - make_pte_base l d := by
  simp only [classify_level] at h
  split_ifs at h <;> cases h <;> simp

/-- The ranges of one depth are nested over any number of levels. -/
theorem pte_ranges_nested_le (d : Nat) (hd : d = 4 ∨ d = 5) :
    ∀ (j k : Nat), k + j < d →
      make_pte_base (k + j) d ≤ make_pte_base k d ∧
      make_pte_base k d + 2 ^ (12 + 9 * k) - 1 ≤
        make_pte_base (k + j) d + 2 ^ (12 + 9 * (k + j)) - 1 := by
  intro j
  induction j with
  | zero => intro k _; exact ⟨le_refl _, le_refl _⟩
  | succ j ih =>
    intro k hk
    have h1 := ih k (by omega)
    have h2 := pte_ranges_nested d (k + j) hd (by omega)
    exact ⟨le_trans h2.1 h1.1, le_trans h1.2 h2.2⟩

/-- The nesting of the ranges of one depth is strict at both ends. -/
theorem pte_ranges_nested_strict (d l : Nat) (hd : d = 4 ∨ d = 5) (hl : l + 1 < d) :
    make_pte_base (l + 1) d < make_pte_base l d ∧
    make_pte_base l d + 2 ^ (12 + 9 * l) - 1 <
      make_pte_base (l + 1) d + 2 ^ (12 + 9 * (l + 1)) - 1 := by
  rcases hd with rfl | rfl
  · have h3 : l < 3 := by omega
    interval_cases l <;> decide
  · have h4 : l < 4 := by omega
    interval_cases l <;> decide

/-- C19 as stated fails: `0xFFFFF6FB7DBED000` lies in the range of level 0 and in the range
of level 1 of depth 4, two distinct ranges, and the order of evaluation decides: level 0,
asked first, answers `MmGetPml4eBase`, where level 1 asked alone answers
`MmGetPdpteBase`. -/
theorem address_families_overlap_counterexample :
    (make_pte_base 0 4 ≤ 0xFFFFF6FB7DBED000 ∧
      0xFFFFF6FB7DBED000 ≤ make_pte_base 0 4 + 2 ^ (12 + 9 * 0) - 1) ∧
    (make_pte_base 1 4 ≤ 0xFFFFF6FB7DBED000 ∧
      0xFFFFF6FB7DBED000 ≤ make_pte_base 1 4 + 2 ^ (12 + 9 * 1) - 1) ∧
    (make_pte_base 0 4, make_pte_base 0 4 + 2 ^ (12 + 9 * 0) - 1) ≠
      (make_pte_base 1 4, make_pte_base 1 4 + 2 ^ (12 + 9 * 1) - 1) ∧
    classify_immediate 0xFFFFF6FB7DBED000 =
      some { getter := "MmGetPml4eBase", rtype := "_MMPTE", offset := 0 } ∧
    classify_level 0xFFFFF6FB7DBED000 4 1 =
      some { getter := "MmGetPdpteBase", rtype := "_MMPTE", offset := 0x1ED000 } := by
  decide

/-- C19, amended: the two PFN windows `[base, base + 48]` are disjoint from each other and
from the nine page-table ranges `[make_pte_base l d, make_pte_base l d + 2 ^ (12 + 9 * l) - 1]`
(`d` in `{4, 5}`, `l < d`), and every range of depth 4 is disjoint from every range of depth
5; the ranges of one depth are nested, the range of level `l` lying inside the range of
level `l + 1`, so that for an address in the range of a lower level the order of evaluation
(levels upwards from 0) decides the classification. -/
theorem address_families_layout :
    (∀ a, ¬ ((pfn_list_base_va48 ≤ a ∧ a ≤ pfn_list_base_va48 + 48) ∧
        (pfn_list_base_la57 ≤ a ∧ a ≤ pfn_list_base_la57 + 48))) ∧
    (∀ a d l, (d = 4 ∨ d = 5) → l < d → make_pte_base l d ≤ a →
      a ≤ make_pte_base l d + 2 ^ (12 + 9 * l) - 1 →
      ¬ (pfn_list_base_va48 ≤ a ∧ a ≤ pfn_list_base_va48 + 48) ∧
      ¬ (pfn_list_base_la57 ≤ a ∧ a ≤ pfn_list_base_la57 + 48)) ∧
    (∀ a l k, l < 4 → k < 5 →
      ¬ ((make_pte_base l 4 ≤ a ∧ a ≤ make_pte_base l 4 + 2 ^ (12 + 9 * l) - 1) ∧
        (make_pte_base k 5 ≤ a ∧ a ≤ make_pte_base k 5 + 2 ^ (12 + 9 * k) - 1))) ∧
    (∀ d l, (d = 4 ∨ d = 5) → l + 1 < d →
      make_pte_base (l + 1) d ≤ make_pte_base l d ∧
      make_pte_base l d + 2 ^ (12 + 9 * l) - 1 ≤
        make_pte_base (l + 1) d + 2 ^ (12 + 9 * (l + 1)) - 1) ∧
    (∀ a d l, (d = 4 ∨ d = 5) → l + 1 < d → make_pte_base l d ≤ a →
      a ≤ make_pte_base l d + 2 ^ (12 + 9 * l) - 1 →
      classify_level a d (l + 1) ≠ none ∧ classify_immediate a ≠ classify_level a d (l + 1)) := by
  obtain ⟨e1, e2, e3, e4, e5, e6, e7, e8, e9⟩ := make_pte_base_values
  have hpfn : ∀ a d l, (d = 4 ∨ d = 5) → l < d → make_pte_base l d ≤ a →
      a ≤ make_pte_base l d + 2 ^ (12 + 9 * l) - 1 →
      ¬ (pfn_list_base_va48 ≤ a ∧ a ≤ pfn_list_base_va48 + 48) ∧
      ¬ (pfn_list_base_la57 ≤ a ∧ a ≤ pfn_list_base_la57 + 48) := by
    intro a d l hd hl h1 h2
    simp only [pfn_list_base_va48, pfn_list_base_la57]
    rcases hd with rfl | rfl <;> interval_cases l <;>
      simp only [e1, e2, e3, e4, e5, e6, e7, e8, e9] at h1 h2 <;>
      norm_num at h1 h2 ⊢ <;> omega
  have hdepth : ∀ a l k, l < 4 → k < 5 →
      ¬ ((make_pte_base l 4 ≤ a ∧ a ≤ make_pte_base l 4 + 2 ^ (12 + 9 * l) - 1) ∧
        (make_pte_base k 5 ≤ a ∧ a ≤ make_pte_base k 5 + 2 ^ (12 + 9 * k) - 1)) := by
    intro a l k hl hk
    interval_cases l <;> interval_cases k <;>
      simp only [e1, e2, e3, e4, e5, e6, e7, e8, e9] <;> norm_num <;> omega
  refine ⟨?_, hpfn, hdepth, fun d l hd hl => pte_ranges_nested d l hd hl, ?_⟩
  · intro a
    simp only [pfn_list_base_va48, pfn_list_base_la57]
    omega
  · intro a d l hd hl h1 h2
    have hn := pte_ranges_nested d l hd hl
    have hin : classify_level a d (l + 1) ≠ none := by
      rw [ne_eq, classify_level_none_iff a d (l + 1) hd hl]
      omega
    refine ⟨hin, ?_⟩
    have hst := pte_ranges_nested_strict d l hd hl
    have hnext := classify_level_base a d (l + 1) hd hl (by omega) (by omega)
      (fun h => by omega)
    rw [hnext]
    have hlmatch : classify_level a d l ≠ none := by
      rw [ne_eq, classify_level_none_iff a d l hd (by omega)]
      omega
    have hfrom : ∀ m, classify_levels a d d 0 = some m →
        m.offset ≠ a - make_pte_base (l + 1) d := by
      intro m hm
      obtain ⟨k, _, hk, hck, hfirst⟩ := classify_levels_some a d m d 0 hm
      have hkl : k ≤ l := by
        by_contra hc
        exact hlmatch (hfirst l (Nat.zero_le _) (by omega))
      have hnest := pte_ranges_nested_le d hd (l - k) k (by omega)
      have e : k + (l - k) = l := by omega
      rw [e] at hnest
      rcases classify_level_offset a d k m hck with h0 | h0 <;> rw [h0] <;> omega
    have hsome : ∃ m, classify_levels a d d 0 = some m := by
      cases hc : classify_levels a d d 0 with
      | some m => exact ⟨m, rfl⟩
      | none =>
        rw [classify_levels_none_iff] at hc
        exact absurd (hc l (Nat.zero_le _) (by omega)) hlmatch
    obtain ⟨m, hm⟩ := hsome
    have hcl : classify_immediate a = some m := by
      have hp := (classify_pfn_list_none_iff a).mpr (hpfn a d l hd (by omega) h1 h2)
      simp only [classify_immediate, classify_page_tables, hp]
      rcases hd with rfl | rfl
      · rw [hm]
      · have h4 : classify_levels a 4 4 0 = none := by
          rw [classify_levels_none_iff]
          intro k _ hk
          rw [classify_level_none_iff a 4 k (Or.inl rfl) (by omega)]
          have := hdepth a k l (by omega) (by omega)
          omega
        rw [h4]
        simp only
        rw [hm]
    rw [hcl]
    intro heq
    cases heq
    exact hfrom _ hm rfl

/-! ## The base addresses -/

/-- C20: for paging depth `d` in `{4, 5}` and level `l < d`, `make_pte_base l d`, computed
in 64-bit unsigned arithmetic, is the address whose bits `9 * d + 12 .. 63` are all ones,
whose 9-bit index field `i` (bits `12 + 9 * i .. 20 + 9 * i`) is `0x1ED` for `l ≤ i < d` and
0 for `i < l`, and whose low 12 bits are 0; for `d = 4` the values are `0xFFFFF6FB7DBED000`,
`0xFFFFF6FB7DA00000`, `0xFFFFF6FB40000000`, `0xFFFFF68000000000` for `l = 0, 1, 2, 3`; and
`make_pte_base l d + 2 ^ (12 + 9 * l) - 1` is below `2 ^ 64`, so that the limit computed by
`classify_level` in 64-bit arithmetic is this number. -/
theorem make_pte_base_bits (d l : Nat) (hd : d = 4 ∨ d = 5) (hl : l < d) :
    make_pte_base l d < 2 ^ 64 ∧
    make_pte_base l d / 2 ^ (9 * d + 12) = 2 ^ (64 - (9 * d + 12)) - 1 ∧
    (∀ i, i < d →
      make_pte_base l d / 2 ^ (12 + 9 * i) % 2 ^ 9 = if l ≤ i then 0x1ED else 0) ∧
    make_pte_base l d % 2 ^ 12 = 0 ∧
    (make_pte_base 0 4 = 0xFFFFF6FB7DBED000 ∧ make_pte_base 1 4 = 0xFFFFF6FB7DA00000 ∧
      make_pte_base 2 4 = 0xFFFFF6FB40000000 ∧ make_pte_base 3 4 = 0xFFFFF68000000000) ∧
    make_pte_base l d + 2 ^ (12 + 9 * l) - 1 < 2 ^ 64 ∧
    (make_pte_base l d + ((1 <<< (12 + 9 * l)) % 2 ^ 64 + 2 ^ 64 - 1) % 2 ^ 64) % 2 ^ 64 =
      make_pte_base l d + 2 ^ (12 + 9 * l) - 1 := by
  rcases hd with rfl | rfl <;> interval_cases l <;> decide

/-- Witness for C20: level 2 of depth 5. -/
theorem make_pte_base_bits_witness :
    make_pte_base 2 5 = 0xFFEDF6FB40000000 ∧
    make_pte_base 2 5 / 2 ^ (9 * 5 + 12) = 2 ^ (64 - (9 * 5 + 12)) - 1 ∧
    make_pte_base 2 5 + 2 ^ (12 + 9 * 2) - 1 < 2 ^ 64 :=
  ⟨by decide, (make_pte_base_bits 5 2 (Or.inr rfl) (by decide)).2.1,
    (make_pte_base_bits 5 2 (Or.inr rfl) (by decide)).2.2.2.2.2.1⟩

/-! ## The count returned by the call-elision optimizer -/

theorem scheduler_hint_step_match (get_name : Nat → String) (union_bits : mop_t → Nat)
    (b : Nat) (m : List mblock_t) (c : Int) (i : Nat) (blk : mblock_t) (ins : minsn_t)
    (hb : m[b]? = some blk) (hi : blk.insns[i]? = some ins)
    (hmatch : is_scheduler_hint get_name union_bits ins = true) :
    scheduler_hint_step get_name union_bits b (m, c) i =
      (clear_predecessors (update_block m b (fun blk => blk.make_nop i)) b, c + 1) := by
  unfold scheduler_hint_step
  simp only [hb, hi, hmatch, if_true]

/-- Block `b` after one matched call at position `i`, when `b` is not its own predecessor:
only the call has changed. -/
theorem matched_block_not_self (m : List mblock_t) (b i : Nat) (blk : mblock_t)
    (hb : m[b]? = some blk) (hself : b ∉ blk.predset) :
    (clear_predecessors (update_block m b (fun blk => blk.make_nop i)) b)[b]? =
      some (blk.make_nop i) := by
  have hb1 : (update_block m b (fun blk => blk.make_nop i))[b]? = some (blk.make_nop i) := by
    rw [update_block_getElem?, if_pos rfl, hb]; rfl
  have hspec := clear_predecessors_spec _ b (blk.make_nop i) hb1 b
  rw [make_nop_predset] at hspec
  rw [hspec.2 hself, hb1]

theorem countP_range_getElem? {α : Type} (p : α → Bool) :
    ∀ l : List α, (List.range l.length).countP (fun j => (l[j]?).any p) = l.countP p := by
  intro l
  induction l with
  | nil => rfl
  | cons a l ih =>
    rw [List.length_cons, List.range_succ_eq_map, List.countP_cons, List.countP_cons,
      List.countP_map]
    have e : ((fun j => ((a :: l)[j]?).any p) ∘ Nat.succ) = (fun j => (l[j]?).any p) := by
      funext j
      simp
    rw [e, ih]
    simp

/-- Invariant of the loop of `scheduler_hint_optimizer` on a block that is not its own
predecessor: after the first `n` positions the counter is the number of matching
instructions among them, and the instructions from position `n` on are as at the start. -/
theorem scheduler_hint_fold_not_self (get_name : Nat → String) (union_bits : mop_t → Nat)
    (mba : List mblock_t) (b : Nat) (blk : mblock_t) (hb : mba[b]? = some blk)
    (hself : b ∉ blk.predset) (n : Nat) :
    ∃ blkn, ((List.range n).foldl (scheduler_hint_step get_name union_bits b) (mba, 0)).1[b]?
        = some blkn ∧
      blkn.predset = blk.predset ∧
      (∀ j, n ≤ j → blkn.insns[j]? = blk.insns[j]?) ∧
      ((List.range n).foldl (scheduler_hint_step get_name union_bits b) (mba, 0)).2 =
        ((List.range n).countP
          (fun j => (blk.insns[j]?).any (is_scheduler_hint get_name union_bits)) : Nat) := by
  induction n with
  | zero => exact ⟨blk, hb, rfl, fun _ _ => rfl, rfl⟩
  | succ n ih =>
    obtain ⟨blkn, h1, h2, h3, h4⟩ := ih
    rw [List.range_succ, List.foldl_append, List.countP_append, List.countP_singleton]
    simp only [List.foldl_cons, List.foldl_nil]
    generalize hst : (List.range n).foldl (scheduler_hint_step get_name union_bits b) (mba, 0)
      = st at h1 h4 ⊢
    obtain ⟨m, c⟩ := st
    simp only at h1 h4 ⊢
    have hn := h3 n (le_refl _)
    cases hins : blk.insns[n]? with
    | none =>
      rw [hins] at hn
      rw [scheduler_hint_step_skip get_name union_bits b m c n (fun blk0 ins0 e1 e2 => by
        rw [h1] at e1; cases e1; rw [hn] at e2; cases e2)]
      refine ⟨blkn, h1, h2, fun j hj => h3 j (by omega), ?_⟩
      simp [h4]
    | some ins =>
      rw [hins] at hn
      by_cases hm : is_scheduler_hint get_name union_bits ins = true
      · rw [scheduler_hint_step_match get_name union_bits b m c n blkn ins h1 hn hm]
        refine ⟨blkn.make_nop n,
          matched_block_not_self m b n blkn h1 (by rw [h2]; exact hself),
          by rw [make_nop_predset, h2], fun j hj => ?_, ?_⟩
        · rw [make_nop_getElem?, if_neg (by omega)]
          exact h3 j (by omega)
        · simp [h4, hm]
      · rw [scheduler_hint_step_skip get_name union_bits b m c n (fun blk0 ins0 e1 e2 => by
          rw [h1] at e1; cases e1; rw [hn] at e2; cases e2; simpa using hm)]
        refine ⟨blkn, h1, h2, fun j hj => h3 j (by omega), ?_⟩
        simp [h4, hm]

/-- The count on a block that is its own predecessor: the first matched call clears every
other instruction of the block but the last, so only the last instruction can match again. -/
theorem scheduler_hint_count_self (get_name : Nat → String) (union_bits : mop_t → Nat)
    (mba : List mblock_t) (b i : Nat) (blk : mblock_t) (call : minsn_t)
    (hb : mba[b]? = some blk) (hself : b ∈ blk.predset)
    (hi : blk.insns[i]? = some call)
    (hmatch : is_scheduler_hint get_name union_bits call = true)
    (hfirst : ∀ j ins, j < i → blk.insns[j]? = some ins →
      is_scheduler_hint get_name union_bits ins = false) :
    (scheduler_hint_optimizer get_name union_bits mba b).2 =
      1 + (if i + 1 < blk.insns.length ∧
          (blk.insns[blk.insns.length - 1]?).any (is_scheduler_hint get_name union_bits) = true
        then 1 else 0) := by
  have hilt : i < blk.insns.length := (List.getElem?_eq_some.mp hi).1
  have hb1 : (update_block mba b (fun blk => blk.make_nop i))[b]? = some (blk.make_nop i) := by
    rw [update_block_getElem?, if_pos rfl, hb]; rfl
  have hspec := clear_predecessors_spec _ b (blk.make_nop i) hb1 b
  rw [make_nop_predset] at hspec
  obtain ⟨cur, hcur, hc1, hc2, hc3⟩ := hspec.1 hself _ hb1
  rw [make_nop_length] at hc3
  unfold scheduler_hint_optimizer
  rw [hb]
  simp only
  have hlen : blk.insns.length = (i + 1) + (blk.insns.length - (i + 1)) := by omega
  generalize hm : blk.insns.length - (i + 1) = m at hlen
  rw [hlen, List.range_add, List.range_succ, List.foldl_append, List.foldl_append]
  rw [foldl_fixed _ _ (List.range i) (fun j hj => by
    apply scheduler_hint_step_skip
    intro blk0 ins h1 h2
    rw [hb] at h1
    cases h1
    exact hfirst j ins (List.mem_range.mp hj) h2)]
  simp only [List.foldl_cons, List.foldl_nil]
  rw [scheduler_hint_step_match get_name union_bits b mba 0 i blk call hb hi hmatch]
  cases m with
  | zero =>
    simp only [List.range_zero, List.map_nil, List.foldl_nil]
    rw [if_neg (fun h => by omega)]
    rfl
  | succ m =>
    rw [List.range_succ, List.map_append, List.foldl_append]
    rw [foldl_fixed (scheduler_hint_step get_name union_bits b)
      (clear_predecessors (update_block mba b (fun blk => blk.make_nop i)) b, 0 + 1)
      (List.map (fun x => i + 1 + x) (List.range m)) (fun x hx => by
      apply scheduler_hint_step_skip
      intro blk2 ins2 h1 h2
      rw [hcur] at h1
      cases h1
      obtain ⟨j, hj, rfl⟩ := List.mem_map.mp hx
      have hjm := List.mem_range.mp hj
      rw [hc3] at h2
      cases h0 : (blk.make_nop i).insns[i + 1 + j]? with
      | none => rw [h0] at h2; cases h2
      | some ins1 =>
        rw [h0] at h2
        simp only [Option.map_some', Option.some.injEq] at h2
        rw [if_pos (by omega)] at h2
        subst h2
        exact is_scheduler_hint_make_nop _ _ _)]
    simp only [List.map_cons, List.map_nil, List.foldl_cons, List.foldl_nil]
    have ht : i + 1 + (m + 1) - 1 = i + 1 + m := by omega
    have hcurt : cur.insns[i + 1 + m]? = blk.insns[i + 1 + m]? := by
      rw [hc3, make_nop_getElem?, if_neg (by omega)]
      cases blk.insns[i + 1 + m]? with
      | none => rfl
      | some ins =>
        simp only [Option.map_some', Option.some.injEq]
        rw [if_neg (by omega)]
    rw [ht]
    cases htail : blk.insns[i + 1 + m]? with
    | none =>
      have := List.getElem?_eq_none_iff.mp htail
      omega
    | some tail =>
      rw [htail] at hcurt
      by_cases hmt : is_scheduler_hint get_name union_bits tail = true
      · rw [scheduler_hint_step_match get_name union_bits b _ _ _ cur tail hcur hcurt hmt]
        rw [if_pos ⟨by omega, by simpa using hmt⟩]
        rfl
      · rw [scheduler_hint_step_skip get_name union_bits b _ _ _ (fun blk0 ins0 e1 e2 => by
          rw [hcur] at e1; cases e1; rw [hcurt] at e2; cases e2; simpa using hmt)]
        rw [if_neg (fun h => hmt (by simpa using h.2))]
        rfl

/-- C8, amended: the value returned by `scheduler_hint_optimizer` is the number of matched
calls it turned into no-ops (`changes` is incremented once per matched call, line 112); the
instructions of the predecessors it clears are not counted.  On a block that is not its own
predecessor this is the number of instructions of the block that match; on a block that is
its own predecessor the first matched call clears every other instruction of the block but
the last, so the value is 1, or 2 when the last instruction is a further matching call;
without a match it is 0 and nothing is changed; for a block whose only match is a single
call it is 1, whatever the number of predecessor instructions cleared. -/
theorem scheduler_hint_optimizer_count (get_name : Nat → String)
    (union_bits : mop_t → Nat) (mba : List mblock_t) (b : Nat) (blk : mblock_t)
    (hb : mba[b]? = some blk) :
    (b ∉ blk.predset →
      (scheduler_hint_optimizer get_name union_bits mba b).2 =
        (blk.insns.countP (is_scheduler_hint get_name union_bits) : Nat)) ∧
    (b ∈ blk.predset → ∀ (i : Nat) (call : minsn_t), blk.insns[i]? = some call →
      is_scheduler_hint get_name union_bits call = true →
      (∀ (j : Nat) (ins : minsn_t), j < i → blk.insns[j]? = some ins →
        is_scheduler_hint get_name union_bits ins = false) →
      (scheduler_hint_optimizer get_name union_bits mba b).2 =
        1 + (if i + 1 < blk.insns.length ∧
            (blk.insns[blk.insns.length - 1]?).any
              (is_scheduler_hint get_name union_bits) = true
          then 1 else 0)) ∧
    ((∀ ins, ins ∈ blk.insns → is_scheduler_hint get_name union_bits ins = false) →
      scheduler_hint_optimizer get_name union_bits mba b = (mba, 0)) ∧
    (∀ (i : Nat) (call : minsn_t), blk.insns[i]? = some call →
      is_scheduler_hint get_name union_bits call = true →
      (∀ (j : Nat) (ins : minsn_t), j ≠ i → blk.insns[j]? = some ins →
        is_scheduler_hint get_name union_bits ins = false) →
      (scheduler_hint_optimizer get_name union_bits mba b).2 = 1) := by
  refine ⟨fun hself => ?_, fun hself i call hi hmatch hfirst => ?_, fun hno => ?_,
    fun i call hi hmatch huniq => ?_⟩
  · obtain ⟨_, _, _, _, h4⟩ := scheduler_hint_fold_not_self get_name union_bits mba b blk hb
      hself blk.insns.length
    unfold scheduler_hint_optimizer
    rw [hb]
    simp only
    rw [h4, countP_range_getElem?]
  · exact scheduler_hint_count_self get_name union_bits mba b i blk call hb hself hi hmatch
      hfirst
  · unfold scheduler_hint_optimizer
    rw [hb]
    simp only
    apply foldl_fixed
    intro j _
    apply scheduler_hint_step_skip
    intro blk0 ins h1 h2
    rw [hb] at h1
    cases h1
    exact hno ins (List.mem_iff_getElem?.mpr ⟨j, h2⟩)
  · rw [scheduler_hint_optimizer_single get_name union_bits mba b i blk call hb hi hmatch
      huniq]

/-- Witness for C8, amended: a block with two matching calls and a predecessor of three
instructions returns 2. -/
theorem scheduler_hint_optimizer_count_witness :
    (scheduler_hint_optimizer
        (fun a => if a = 0x140005000 then "KiRemoveSystemWorkPriorityKick" else "")
        (fun _ => 0)
        [{ insns := [.mk .m_call (.mop_v 0x140005000 8) .mop_z
                       (.mop_f (helper_call_info .BT_VOID) .nil 0) 0x140002004,
                     .mk .m_mov (.mop_n 1 4) .mop_z (.mop_r 8 4) 0x140002009,
                     .mk .m_call (.mop_v 0x140005000 8) .mop_z
                       (.mop_f (helper_call_info .BT_VOID) .nil 0) 0x14000200D],
           predset := [1], lists_dirty := false },
         { insns := [.mk .m_mov (.mop_n 1 4) .mop_z (.mop_r 8 4) 0x140001000,
                     .mk .m_mov (.mop_n 2 4) .mop_z (.mop_r 9 4) 0x140001004,
                     .mk .m_goto (.mop_b 0) .mop_z .mop_z 0x140001008],
           predset := [], lists_dirty := false }] 0).2 = 2 := by
  have h := (scheduler_hint_optimizer_count
        (fun a => if a = 0x140005000 then "KiRemoveSystemWorkPriorityKick" else "")
        (fun _ => 0)
        [{ insns := [.mk .m_call (.mop_v 0x140005000 8) .mop_z
                       (.mop_f (helper_call_info .BT_VOID) .nil 0) 0x140002004,
                     .mk .m_mov (.mop_n 1 4) .mop_z (.mop_r 8 4) 0x140002009,
                     .mk .m_call (.mop_v 0x140005000 8) .mop_z
                       (.mop_f (helper_call_info .BT_VOID) .nil 0) 0x14000200D],
           predset := [1], lists_dirty := false },
         { insns := [.mk .m_mov (.mop_n 1 4) .mop_z (.mop_r 8 4) 0x140001000,
                     .mk .m_mov (.mop_n 2 4) .mop_z (.mop_r 9 4) 0x140001004,
                     .mk .m_goto (.mop_b 0) .mop_z .mop_z 0x140001008],
           predset := [], lists_dirty := false }] 0
        { insns := [.mk .m_call (.mop_v 0x140005000 8) .mop_z
                       (.mop_f (helper_call_info .BT_VOID) .nil 0) 0x140002004,
                     .mk .m_mov (.mop_n 1 4) .mop_z (.mop_r 8 4) 0x140002009,
                     .mk .m_call (.mop_v 0x140005000 8) .mop_z
                       (.mop_f (helper_call_info .BT_VOID) .nil 0) 0x14000200D],
           predset := [1], lists_dirty := false } rfl).1 (by decide)
  rw [h]
  decide

/-! ## Conditional jumps without a reference to a listed global or callee -/

/-- C10 fails on the code.  Unit A: `jz (and r8.4, #0x10.4).4, #0.4, @3` holds no global
reference at all; the payload of its nested-instruction operand (the pointer to the `and`)
read as an address is `0x140001004`, four bytes after the address the database names
`KiIrqlFlags`; `global_optimizer` returns 1, marks the block dirty and replaces the whole
condition by 0.  Unit B: `jnz (call !__readmsr).8, #0.8, @7` holds no call of a listed
routine; the payload of the helper operand (the pointer to the helper name) read as an
address is `0x140003000`, which the database names `MiPteHasShadow`;
`shadow_pte_update_optimizer` returns 1, marks the block dirty and replaces the helper call
by 0. -/
theorem constant_folding_optimizers_fold_without_reference :
    global_optimizer (fun a => if a = 0x140001000 then "KiIrqlFlags" else "")
      (fun op => match op with
        | .mop_d _ _ => 0x140001004
        | _ => 0)
      { insns := [], predset := [], lists_dirty := false }
      (.mk .m_jz
        (.mop_d (.mk .m_and (.mop_r 8 4) (.mop_n 0x10 4) .mop_z 0x140002000) 4)
        (.mop_n 0 4) (.mop_b 3) 0x140002000) =
    (1, { insns := [], predset := [], lists_dirty := true },
      .mk .m_jz (.mop_n 0 4) (.mop_n 0 4) (.mop_b 3) 0x140002000) ∧
    shadow_pte_update_optimizer
      (fun a => if a = 0x140003000 then "MiPteHasShadow" else "")
      (fun op => match op with
        | .mop_h _ => 0x140003000
        | _ => 0)
      { insns := [], predset := [], lists_dirty := false }
      (.mk .m_jnz
        (.mop_d (.mk .m_call (.mop_h "__readmsr") .mop_z
          (.mop_f (helper_call_info .BTF_UINT64) (.cons (.mop_n 0xC0000101 4) .nil) 8)
          0x140002000) 8)
        (.mop_n 0 8) (.mop_b 7) 0x140002000) =
    (1, { insns := [], predset := [], lists_dirty := true },
      .mk .m_jnz (.mop_n 0 4) (.mop_n 0 8) (.mop_b 7) 0x140002000) := by
  constructor <;> rfl

/-! ## Nested calls of the shadow range checks -/

end NtRays
